import Mathlib

/-!
# Verification of the `jobticker` and `ttlcounter` packages

This file gives a shallow embedding, in Lean 4, of the two core components of
the repository: the managed periodic-job ticker (`jobticker`) and the TTL
counter with its heap-backed expiration index (`ttlcounter`, including the
relevant algorithms of Go's `container/heap` that the counter calls).

Modelling conventions:
* Unix timestamps and durations are `Int` (the Go code uses `int64` seconds;
  no arithmetic here approaches the 64-bit boundary, and none of the verified
  properties depend on wrap-around).
* Go maps (`map[string]*Item`) are association lists with first-match lookup;
  the operations below maintain at most one binding per key, exactly like a
  Go map.
* The expiration queue is the Go slice `expirationQueue`; the `container/heap`
  functions `down`, `up`, `Push`, `Pop`, `Fix` and `Init` are translated
  literally, as loops over list indices.  Loops are written with an explicit
  fuel argument (always instantiated with a sufficient bound by callers) so
  that every definition is structurally recursive and kernel-computable.
* The `index` field of `expirationItem` is maintained by `heap.Interface`
  but never read by any code in the package, so it is omitted from the model.
* Goroutine spawning and channel allocation in the ticker are modelled by
  counters (`loops`, `quitGen`) recording how many loops have been spawned
  and how many quit channels have been allocated; log output is modelled as
  a list of emitted messages.
-/

namespace jobticker

/-- Severity levels of the `Logger` interface (`Debug` and `Error`). -/
inductive LogLevel where
  | debug
  | error
deriving DecidableEq, Repr

/-- One emitted log message. -/
structure LogMsg where
  level : LogLevel
  text : String
deriving DecidableEq, Repr

/-- Outcome of one invocation of the user handler (`HandlerFunc`):
it returns `nil`, returns a non-nil error, or panics. -/
inductive HandlerResult where
  | ok
  | fail (msg : String)
  | panicked (msg : String)
deriving DecidableEq, Repr

/-- One observation delivered to the `Metrics` sink:
`Observe(start time.Time, duration time.Duration, err error)`. -/
structure Obs where
  start : Int
  elapsed : Int
  err : Option String
deriving DecidableEq, Repr

/-- Shallow embedding of `Ticker.executeHandler` from `jobticker`.

The Go body is:
```
defer func() {
  if r := recover(); r != nil { t.logger.Error(t.name+": handler panic:", r) }
}()
err := t.handler()
if err != nil { t.logger.Error(t.name+":", err) }
if t.metrics != nil { t.metrics.Observe(startedAt, time.Since(startedAt), err) }
```
When the handler panics, control unwinds directly to the deferred `recover`;
the error-logging statement and the metrics call after the handler call are
skipped.  The function returns the emitted log messages and the list of
metrics observations made during the invocation.  `elapsed` stands for the
value of `time.Since(startedAt)` at the observation point. -/
def executeHandler (name : String) (metricsConfigured : Bool)
    (startedAt elapsed : Int) (res : HandlerResult) : List LogMsg × List Obs :=
  match res with
  | .panicked v =>
      ([⟨.error, name ++ ": handler panic:" ++ v⟩], [])
  | .ok =>
      ([], if metricsConfigured then [⟨startedAt, elapsed, none⟩] else [])
  | .fail e =>
      ([⟨.error, name ++ ":" ++ e⟩],
        if metricsConfigured then [⟨startedAt, elapsed, some e⟩] else [])

/-- Ticker state as manipulated by `Ticker.Start`.  `loops` counts how many
execution loops (`go t.run()`) have been spawned and are considered active;
`quitGen` counts how many quit channels have been allocated, and `hasQuit`
records whether `t.quit` is non-nil. -/
structure TickerState where
  started : Bool
  hasQuit : Bool
  quitGen : Nat
  loops : Nat
  log : List LogMsg
deriving DecidableEq, Repr

/-- A freshly constructed ticker (`New`): stopped, no quit channel, no loop. -/
def tickerNew : TickerState :=
  { started := false, hasQuit := false, quitGen := 0, loops := 0, log := [] }

/-- Shallow embedding of `Ticker.Start`:
```
if t.started { t.logger.Debug(t.name + ": already been started"); return }
t.quit = make(chan bool, 1)
t.started = true
t.wg.Add(1)
go t.run()
```
(The mutex / atomic guard serialises calls; a single sequential call is
modelled.) -/
def tickerStart (name : String) (t : TickerState) : TickerState :=
  if t.started then
    { t with log := t.log ++ [⟨.debug, name ++ ": already been started"⟩] }
  else
    { t with started := true, hasQuit := true, quitGen := t.quitGen + 1,
             loops := t.loops + 1 }

end jobticker

namespace ttlcounter

/-- Structure `Item` from `ttlcounter/counter.go`: a counter value and the Unix
timestamp (`int64`, seconds) of the last access. -/
structure Item where
  value : Int
  access : Int
deriving DecidableEq, Repr

/-- Structure `expirationItem` from `ttlcounter/queue.go` (the write-only `index` field
is omitted; it is never read by the package). -/
structure ExpItem where
  key : String
  expireAt : Int
deriving DecidableEq, Repr

instance : Inhabited ExpItem := ⟨⟨"", 0⟩⟩

/-- Element of the queue slice at position `i` (out-of-range reads never
occur in the translated algorithms; a default is returned for totality). -/
def ent (l : List ExpItem) (i : Nat) : ExpItem :=
  l.getD i default

/-- Method `Swap` of `expirationQueue`: exchange positions `i` and `j`. -/
def swapL (l : List ExpItem) (i j : Nat) : List ExpItem :=
  (l.set i (ent l j)).set j (ent l i)

/-- Go `container/heap.down(h, i0, n)`, fuelled.  Returns the resulting
slice together with the `i > i0` flag (whether any swap happened).  The Go
loop is:
```
i := i0
for {
  j1 := 2*i + 1
  if j1 >= n || j1 < 0 { break }
  j := j1
  if j2 := j1 + 1; j2 < n && h.Less(j2, j1) { j = j2 }
  if !h.Less(j, i) { break }
  h.Swap(i, j)
  i = j
}
return i > i0
```
(`j1 < 0` only guards 64-bit overflow and cannot occur here; `Less` compares
`expireAt`.)  Any `fuel ≥ n - i0` runs the loop to completion. -/
def minChild (l : List ExpItem) (i n : Nat) : Nat :=
  if 2 * i + 2 < n ∧ (ent l (2 * i + 2)).expireAt < (ent l (2 * i + 1)).expireAt
  then 2 * i + 2 else 2 * i + 1

/-- See the Go loop quoted above; `minChild` is the selected index `j`. -/
def downFB : Nat → List ExpItem → Nat → Nat → List ExpItem × Bool
  | 0, l, _, _ => (l, false)
  | fuel + 1, l, i, n =>
      if 2 * i + 1 < n then
        let j := minChild l i n
        if (ent l j).expireAt < (ent l i).expireAt then
          ((downFB fuel (swapL l i j) j n).1, true)
        else (l, false)
      else (l, false)

/-- Go `container/heap.up(h, j)`, fuelled:
```
for {
  i := (j - 1) / 2
  if i == j || !h.Less(j, i) { break }
  h.Swap(i, j)
  j = i
}
```
(For `j = 0`, Go computes `(-1)/2 == 0 == j` and breaks; natural-number
`(0-1)/2 = 0` agrees.)  Any `fuel ≥ j + 1` runs the loop to completion. -/
def upF : Nat → List ExpItem → Nat → List ExpItem
  | 0, l, _ => l
  | fuel + 1, l, j =>
      let i := (j - 1) / 2
      if i = j then l
      else if (ent l j).expireAt < (ent l i).expireAt then
        upF fuel (swapL l i j) i
      else l

/-- Go `heap.Push`: append the new element, then `up(h, h.Len()-1)`. -/
def heapPush (l : List ExpItem) (e : ExpItem) : List ExpItem :=
  upF (l.length + 1) (l ++ [e]) l.length

/-- Go `heap.Pop`: `h.Swap(0, n-1); down(h, 0, n-1)`; the interface `Pop`
then removes and returns the last element (the old root).  Only the
remaining slice is modelled (the caller `Vacuum` reads the root before
popping). -/
def heapPop (l : List ExpItem) : List ExpItem :=
  match l with
  | [] => []
  | _ :: _ =>
      let n := l.length
      (downFB n (swapL l 0 (n - 1)) 0 (n - 1)).1.dropLast

/-- Go `heap.Fix(h, i)`: `if !down(h, i, h.Len()) { up(h, i) }`. -/
def heapFix (l : List ExpItem) (i : Nat) : List ExpItem :=
  let r := downFB l.length l i l.length
  if r.2 then r.1 else upF (i + 1) r.1 i

/-- The loop of Go `heap.Init`: `for i := n/2 - 1; i >= 0; i-- { down(h, i, n) }`.
`heapInitFrom l n k` still has to process indices `k-1, k-2, …, 0`. -/
def heapInitFrom (n : Nat) : List ExpItem → Nat → List ExpItem
  | l, 0 => l
  | l, k + 1 => heapInitFrom n (downFB n l k n).1 k

/-- Go `heap.Init`. -/
def heapInit (l : List ExpItem) : List ExpItem :=
  heapInitFrom l.length l (l.length / 2)

/-- The binary-heap ordering on a prefix: every parent/child edge whose
child is below `n` and whose parent index is at least `m` is ordered.
`m = 0` is the full min-heap property on the prefix of length `n`. -/
def HeapExcept (l : List ExpItem) (n m : Nat) : Prop :=
  ∀ c, c < n → 0 < c → m ≤ (c - 1) / 2 →
    (ent l ((c - 1) / 2)).expireAt ≤ (ent l c).expireAt

instance (l : List ExpItem) (n m : Nat) : Decidable (HeapExcept l n m) := by
  unfold HeapExcept; infer_instance

/-- The min-heap property of the whole queue slice, as maintained by
`container/heap`. -/
def IsHeap (l : List ExpItem) : Prop :=
  HeapExcept l l.length 0

instance (l : List ExpItem) : Decidable (IsHeap l) := by
  unfold IsHeap; infer_instance

/-- Index `x` is in the subtree rooted at `r` of the implicit binary tree on
slice indices (`x = r`, or `x`'s parent chain passes through `r`). -/
inductive Desc (r : Nat) : Nat → Prop
  | refl : Desc r r
  | step : ∀ x c, Desc r x → (c = 2 * x + 1 ∨ c = 2 * x + 2) → Desc r c

/-- Number of queue entries whose `key` equals `k`. -/
def countKey (k : String) (l : List ExpItem) : Nat :=
  l.countP (fun e => e.key == k)

/-- Association-list model of the Go map `map[string]*Item`: first-match
lookup is `List.lookup`; `mapSet` replaces the first binding of the key or
appends a fresh binding; `mapDel` removes the key's binding. -/
def mapSet : List (String × Item) → String → Item → List (String × Item)
  | [], k, v => [(k, v)]
  | (k', v') :: rest, k, v =>
      if k' = k then (k, v) :: rest else (k', v') :: mapSet rest k v

/-- Go `delete(c.items, key)`. -/
def mapDel (m : List (String × Item)) (k : String) : List (String × Item) :=
  m.filter (fun kv => !(kv.1 == k))

/-- The `Counter` state: the items map, the configured TTL in seconds and the
expiration queue.  (The mutex serialises operations; each public method is
modelled as one atomic transition.  The background goroutine is external:
it just calls `Vacuum` with the current time.) -/
structure CState where
  items : List (String × Item)
  ttl : Int
  queue : List ExpItem
deriving DecidableEq, Repr

/-- Constant `DefaultTTL = 1` (seconds). -/
def DefaultTTL : Int := 1

/-- Constructor `New(ttl)`: non-positive TTL is replaced by `DefaultTTL`; empty map and
queue (`heap.Init` of the empty queue is a no-op). -/
def new (ttl : Int) : CState :=
  { items := [], ttl := if ttl ≤ 0 then DefaultTTL else ttl, queue := [] }

/-- Index of the first queue entry whose `key` equals `k` (the linear scan
of `Counter.updateKeyInQueue`). -/
def findKeyIdx (k : String) : List ExpItem → Option Nat
  | [] => none
  | e :: rest =>
      if e.key = k then some 0 else (findKeyIdx k rest).map (· + 1)

/-- Method `Counter.updateKeyInQueue(key, expireAt)`: linear scan for the first
entry with the key, overwrite its `expireAt`, `heap.Fix` at its position,
break. -/
def updateKeyInQueue (q : List ExpItem) (k : String) (expireAt : Int) :
    List ExpItem :=
  match findKeyIdx k q with
  | some i => heapFix (q.set i ⟨k, expireAt⟩) i
  | none => q

/-- Method `Counter.Inc(key)` at wall-clock time `now` (the value of
`time.Now().Unix()` read inside the method):
```
expireAt := now.Unix() + c.ttl
item, ok := c.items[key]
if !ok {
  item = &Item{}; c.items[key] = item
  heap.Push(&c.expQueue, &expirationItem{key: key, expireAt: expireAt})
}
item.value++
item.access = now.Unix()
c.updateKeyInQueue(key, expireAt)
```
-/
def inc (s : CState) (key : String) (now : Int) : CState :=
  let expireAt := now + s.ttl
  match (s.items.lookup key : Option Item) with
  | none =>
      { s with
        items := mapSet s.items key ⟨1, now⟩,
        queue := updateKeyInQueue (heapPush s.queue ⟨key, expireAt⟩) key expireAt }
  | some it =>
      { s with
        items := mapSet s.items key ⟨it.value + 1, now⟩,
        queue := updateKeyInQueue s.queue key expireAt }

/-- Method `Counter.Get(key)`: returns the stored value if the key is present and
`0` otherwise; the state is returned unchanged (the method only reads). -/
def get (s : CState) (key : String) : Int × CState :=
  match (s.items.lookup key : Option Item) with
  | some it => (it.value, s)
  | none => (0, s)

/-- Method `Counter.Touch(key)` at time `now`: if the key is present, return its
value, set `access` to `now` and update its queue entry to `now + ttl`;
otherwise return `0` and change nothing. -/
def touch (s : CState) (key : String) (now : Int) : Int × CState :=
  let expireAt := now + s.ttl
  match (s.items.lookup key : Option Item) with
  | none => (0, s)
  | some it =>
      (it.value,
        { s with
          items := mapSet s.items key ⟨it.value, now⟩,
          queue := updateKeyInQueue s.queue key expireAt })

/-- Method `Counter.Del(key)`: remove the key from the map; the queue is not
touched. -/
def del (s : CState) (key : String) : CState :=
  { s with items := mapDel s.items key }

/-- Method `Counter.Reset(key)` at time `now`: if present, set the value to `0`
and refresh `access`; the queue is not touched. -/
def reset (s : CState) (key : String) (now : Int) : CState :=
  match (s.items.lookup key : Option Item) with
  | some _ => { s with items := mapSet s.items key ⟨0, now⟩ }
  | none => s

/-- The loop body of `Counter.Vacuum(now)`, fuelled (any
`fuel ≥ q.length` runs it to completion):
```
for c.expQueue.Len() > 0 {
  item := c.expQueue[0]
  if item.expireAt > now.Unix() { break }
  heap.Pop(&c.expQueue)
  if storedItem, exists := c.items[item.key]; exists && storedItem.access <= item.expireAt-c.ttl {
    delete(c.items, item.key)
  }
}
```
-/
def vacDel (items : List (String × Item)) (root : ExpItem) (ttl : Int) :
    List (String × Item) :=
  match (items.lookup root.key : Option Item) with
  | some it =>
      if it.access ≤ root.expireAt - ttl then mapDel items root.key
      else items
  | none => items

/-- See the Go loop quoted above; `vacDel` is its conditional `delete`. -/
def vacLoop : Nat → List (String × Item) → List ExpItem → Int → Int →
    List (String × Item) × List ExpItem
  | 0, items, q, _, _ => (items, q)
  | fuel + 1, items, q, ttl, now =>
      match q with
      | [] => (items, q)
      | root :: _ =>
          if root.expireAt ≤ now then
            vacLoop fuel (vacDel items root ttl) (heapPop q) ttl now
          else (items, q)

/-- Method `Counter.Vacuum(now)`. -/
def vacuum (s : CState) (now : Int) : CState :=
  let r := vacLoop s.queue.length s.items s.queue s.ttl now
  { s with items := r.1, queue := r.2 }

/-- Method `Counter.SetTTL(ttl)`:
```
if ttl <= 0 { ttl = DefaultTTL }
oldTTL := c.ttl
c.ttl = int64(ttl)
if oldTTL == c.ttl { return }
newQueue := ...                      // entry ↦ (expireAt - oldTTL) + newTTL
c.expQueue = newQueue
heap.Init(&c.expQueue)
```
-/
def setTTL (s : CState) (ttl : Int) : CState :=
  let t := if ttl ≤ 0 then DefaultTTL else ttl
  if s.ttl = t then { s with ttl := t }
  else
    { s with
      ttl := t,
      queue := heapInit (s.queue.map (fun e => ⟨e.key, e.expireAt - s.ttl + t⟩)) }

/-- An item is logically expired at `now` when `lastAccess + ttl ≤ now`
(absent keys count as expired); this is the spec's lazy-expiration
predicate. -/
def logicallyExpired (s : CState) (key : String) (now : Int) : Bool :=
  match (s.items.lookup key : Option Item) with
  | some it => decide (it.access + s.ttl ≤ now)
  | none => true

/-- The scheduling-consistency invariant of reachable counter states under a
monotone clock: no queue entry is scheduled later than its (present) item's
`access + ttl`.  (Whenever an entry is pushed or refreshed at time `now`,
both the entry's `expireAt = now + ttl` and the item's `access = now` are
written; afterwards `access` only grows.) -/
def syncInv (s : CState) : Bool :=
  s.queue.all (fun e =>
    match (s.items.lookup e.key : Option Item) with
    | some it => decide (e.expireAt ≤ it.access + s.ttl)
    | none => true)

/-- One public mutating operation of the counter, with the wall-clock value
it observes. -/
inductive COp where
  | inc (k : String) (now : Int)
  | touch (k : String) (now : Int)
  | del (k : String)
  | reset (k : String) (now : Int)
  | setTTL (v : Int)
  | vacuum (now : Int)
deriving DecidableEq, Repr

/-- Apply one operation. -/
def applyOp (s : CState) : COp → CState
  | .inc k now => inc s k now
  | .touch k now => (touch s k now).2
  | .del k => del s k
  | .reset k now => reset s k now
  | .setTTL v => setTTL s v
  | .vacuum now => vacuum s now

/-- Run a sequence of operations from a state. -/
def runOps (s : CState) (ops : List COp) : CState :=
  ops.foldl applyOp s

/-- Returns `true` for every operation except `Del`. -/
def delFree : COp → Bool
  | .del _ => false
  | _ => true

end ttlcounter

/-! ## Lemmas and theorems -/

namespace ttlcounter

theorem ent_set_self (l : List ExpItem) (i : Nat) (a : ExpItem)
    (h : i < l.length) : ent (l.set i a) i = a := by
  simp [ent, List.getD_eq_getElem?_getD, List.getElem?_set_eq_of_lt a h]

theorem ent_set_ne (l : List ExpItem) (i j : Nat) (a : ExpItem)
    (h : i ≠ j) : ent (l.set i a) j = ent l j := by
  simp [ent, List.getD_eq_getElem?_getD, List.getElem?_set_ne h]

theorem ent_cons_zero (e : ExpItem) (l : List ExpItem) : ent (e :: l) 0 = e := rfl

theorem ent_cons_succ (e : ExpItem) (l : List ExpItem) (i : Nat) :
    ent (e :: l) (i + 1) = ent l i := rfl

theorem length_swapL (l : List ExpItem) (i j : Nat) :
    (swapL l i j).length = l.length := by
  simp [swapL]

theorem ent_swapL_fst (l : List ExpItem) (i j : Nat) (hi : i < l.length) :
    ent (swapL l i j) i = ent l j := by
  unfold swapL
  rcases eq_or_ne j i with rfl | hne
  · rw [ent_set_self _ _ _ (by simpa using hi)]
  · rw [ent_set_ne _ _ _ _ hne, ent_set_self _ _ _ hi]

theorem ent_swapL_snd (l : List ExpItem) (i j : Nat) (hj : j < l.length) :
    ent (swapL l i j) j = ent l i := by
  unfold swapL
  rw [ent_set_self _ _ _ (by simpa using hj)]

theorem ent_swapL_other (l : List ExpItem) (i j x : Nat) (hxi : x ≠ i)
    (hxj : x ≠ j) : ent (swapL l i j) x = ent l x := by
  unfold swapL
  rw [ent_set_ne _ _ _ _ (Ne.symm hxj), ent_set_ne _ _ _ _ (Ne.symm hxi)]

theorem countP_set (p : ExpItem → Bool) :
    ∀ (l : List ExpItem) (i : Nat) (a : ExpItem), i < l.length →
      (l.set i a).countP p + (if p (ent l i) then 1 else 0) =
        l.countP p + (if p a then 1 else 0) := by
  intro l
  induction l with
  | nil => intro i a h; simp at h
  | cons x xs ih =>
    intro i a h
    cases i with
    | zero =>
      simp [List.countP_cons, ent_cons_zero]
      omega
    | succ n =>
      have hn : n < xs.length := by simpa using h
      have := ih n a hn
      simp only [List.set, List.countP_cons, ent_cons_succ]
      omega

theorem countP_swapL (p : ExpItem → Bool) (l : List ExpItem) (i j : Nat)
    (hi : i < l.length) (hj : j < l.length) :
    (swapL l i j).countP p = l.countP p := by
  have h1 := countP_set p l i (ent l j) hi
  have hlen : (l.set i (ent l j)).length = l.length := by simp
  have h2 := countP_set p (l.set i (ent l j)) j (ent l i) (by omega)
  have hent : ent (l.set i (ent l j)) j = ent l j := by
    rcases eq_or_ne i j with rfl | hne
    · exact ent_set_self _ _ _ hi
    · exact ent_set_ne _ _ _ _ hne
  rw [hent] at h2
  unfold swapL
  omega

theorem desc_le {r x : Nat} (h : Desc r x) : r ≤ x := by
  induction h with
  | refl => exact le_refl r
  | step x c _ hc ih => omega

theorem desc_trans {i j x : Nat} (h1 : Desc i j) (h2 : Desc j x) : Desc i x := by
  induction h2 with
  | refl => exact h1
  | step y c _ hc ih => exact Desc.step y c ih hc

theorem desc_child {r x c : Nat} (h : Desc r x) (hc : c = 2 * x + 1 ∨ c = 2 * x + 2) :
    Desc r c := Desc.step x c h hc

theorem not_desc_of_lt {r x : Nat} (h : x < r) : ¬ Desc r x :=
  fun hd => absurd (desc_le hd) (by omega)

theorem desc_parent {j c : Nat} (h : Desc j c) (hne : c ≠ j) :
    Desc j ((c - 1) / 2) := by
  cases h with
  | refl => exact absurd rfl hne
  | step x c hx hc =>
    have : (c - 1) / 2 = x := by omega
    rw [this]; exact hx

theorem desc_zero : ∀ x : Nat, Desc 0 x := by
  intro x
  induction x using Nat.strong_induction_on with
  | _ x ih =>
    cases x with
    | zero => exact Desc.refl
    | succ y =>
      have hp : (y + 1 - 1) / 2 < y + 1 := by omega
      have hd := ih ((y + 1 - 1) / 2) hp
      exact Desc.step _ _ hd (by omega)

theorem desc_chain_le {l : List ExpItem} {n m r : Nat} (hh : HeapExcept l n m)
    (hm : m ≤ r) : ∀ x, Desc r x → x < n →
      (ent l r).expireAt ≤ (ent l x).expireAt := by
  intro x hd
  induction hd with
  | refl => intro _; exact le_refl _
  | step y c hy hc ih =>
    intro hcn
    have hyc : y < c := by omega
    have h1 : (ent l r).expireAt ≤ (ent l y).expireAt := ih (by omega)
    have hpar : (c - 1) / 2 = y := by omega
    have h2 := hh c hcn (by omega) (by rw [hpar]; exact le_trans hm (desc_le hy))
    rw [hpar] at h2
    omega

end ttlcounter

namespace ttlcounter

theorem minChild_cases (l : List ExpItem) (i n : Nat) :
    minChild l i n = 2 * i + 1 ∨ minChild l i n = 2 * i + 2 := by
  unfold minChild; split
  · exact Or.inr rfl
  · exact Or.inl rfl

theorem minChild_lt (l : List ExpItem) (i n : Nat) (h : 2 * i + 1 < n) :
    minChild l i n < n := by
  unfold minChild; split
  · omega
  · exact h

theorem minChild_gt (l : List ExpItem) (i n : Nat) : i < minChild l i n := by
  rcases minChild_cases l i n with h | h <;> omega

theorem minChild_le_left (l : List ExpItem) (i n : Nat) :
    (ent l (minChild l i n)).expireAt ≤ (ent l (2 * i + 1)).expireAt := by
  unfold minChild; split
  · omega
  · exact le_refl _

theorem minChild_le_right (l : List ExpItem) (i n : Nat) (h : 2 * i + 2 < n) :
    (ent l (minChild l i n)).expireAt ≤ (ent l (2 * i + 2)).expireAt := by
  unfold minChild; split
  · exact le_refl _
  · next hc =>
    have := not_and.mp hc h
    omega

theorem downFB_succ (fuel : Nat) (l : List ExpItem) (i n : Nat) :
    downFB (fuel + 1) l i n =
      if 2 * i + 1 < n then
        if (ent l (minChild l i n)).expireAt < (ent l i).expireAt then
          ((downFB fuel (swapL l i (minChild l i n)) (minChild l i n) n).1, true)
        else (l, false)
      else (l, false) := rfl

theorem downFB_length (fuel : Nat) :
    ∀ (l : List ExpItem) (i n : Nat), (downFB fuel l i n).1.length = l.length := by
  induction fuel with
  | zero => intro l i n; rfl
  | succ f ih =>
    intro l i n
    rw [downFB_succ]
    by_cases h1 : 2 * i + 1 < n
    · rw [if_pos h1]
      by_cases h2 : (ent l (minChild l i n)).expireAt < (ent l i).expireAt
      · rw [if_pos h2]
        show (downFB f (swapL l i (minChild l i n)) (minChild l i n) n).1.length = _
        rw [ih, length_swapL]
      · rw [if_neg h2]
    · rw [if_neg h1]

theorem downFB_countP (p : ExpItem → Bool) (fuel : Nat) :
    ∀ (l : List ExpItem) (i n : Nat), n ≤ l.length →
      (downFB fuel l i n).1.countP p = l.countP p := by
  induction fuel with
  | zero => intro l i n _; rfl
  | succ f ih =>
    intro l i n hn
    rw [downFB_succ]
    by_cases h1 : 2 * i + 1 < n
    · rw [if_pos h1]
      by_cases h2 : (ent l (minChild l i n)).expireAt < (ent l i).expireAt
      · rw [if_pos h2]
        show (downFB f (swapL l i (minChild l i n)) (minChild l i n) n).1.countP p = _
        rw [ih _ _ _ (by rw [length_swapL]; exact hn)]
        exact countP_swapL p l i _ (by omega) (by have := minChild_lt l i n h1; omega)
      · rw [if_neg h2]
    · rw [if_neg h1]

theorem downFB_untouched (fuel : Nat) :
    ∀ (l : List ExpItem) (i n x : Nat), ¬ Desc i x →
      ent (downFB fuel l i n).1 x = ent l x := by
  induction fuel with
  | zero => intro l i n x _; rfl
  | succ f ih =>
    intro l i n x hx
    rw [downFB_succ]
    by_cases h1 : 2 * i + 1 < n
    · rw [if_pos h1]
      by_cases h2 : (ent l (minChild l i n)).expireAt < (ent l i).expireAt
      · rw [if_pos h2]
        show ent (downFB f (swapL l i (minChild l i n)) (minChild l i n) n).1 x = _
        have hdij : Desc i (minChild l i n) :=
          desc_child Desc.refl (by rcases minChild_cases l i n with h | h <;> [exact Or.inl h; exact Or.inr h])
        have hdx : ¬ Desc (minChild l i n) x := fun hd => hx (desc_trans hdij hd)
        rw [ih _ _ _ _ hdx]
        exact ent_swapL_other l i _ x (fun he => hx (he ▸ Desc.refl))
          (fun he => hx (he ▸ hdij))
      · rw [if_neg h2]
    · rw [if_neg h1]

theorem downFB_untouched_ge (fuel : Nat) :
    ∀ (l : List ExpItem) (i n x : Nat), n ≤ x →
      ent (downFB fuel l i n).1 x = ent l x := by
  induction fuel with
  | zero => intro l i n x _; rfl
  | succ f ih =>
    intro l i n x hx
    rw [downFB_succ]
    by_cases h1 : 2 * i + 1 < n
    · rw [if_pos h1]
      by_cases h2 : (ent l (minChild l i n)).expireAt < (ent l i).expireAt
      · rw [if_pos h2]
        show ent (downFB f (swapL l i (minChild l i n)) (minChild l i n) n).1 x = _
        rw [ih _ _ _ _ hx]
        have hj := minChild_lt l i n h1
        exact ent_swapL_other l i _ x (by omega) (by omega)
      · rw [if_neg h2]
    · rw [if_neg h1]

theorem downFB_mem_desc (fuel : Nat) :
    ∀ (l : List ExpItem) (i n x : Nat), n ≤ l.length → x < n → Desc i x →
      ∃ y, y < n ∧ Desc i y ∧ ent (downFB fuel l i n).1 x = ent l y := by
  induction fuel with
  | zero => intro l i n x _ hx hd; exact ⟨x, hx, hd, rfl⟩
  | succ f ih =>
    intro l i n x hn hx hd
    rw [downFB_succ]
    by_cases h1 : 2 * i + 1 < n
    · rw [if_pos h1]
      by_cases h2 : (ent l (minChild l i n)).expireAt < (ent l i).expireAt
      · rw [if_pos h2]
        set j := minChild l i n with hjdef
        show ∃ y, y < n ∧ Desc i y ∧ ent (downFB f (swapL l i j) j n).1 x = ent l y
        have hij : i < j := minChild_gt l i n
        have hjn : j < n := minChild_lt l i n h1
        have hdij : Desc i j :=
          desc_child Desc.refl (by rcases minChild_cases l i n with h | h <;> [exact Or.inl h; exact Or.inr h])
        by_cases hdx : Desc j x
        · obtain ⟨y, hy, hdjy, hent⟩ :=
            ih (swapL l i j) j n x (by rw [length_swapL]; exact hn) hx hdx
          rcases eq_or_ne y j with rfl | hyne
          · refine ⟨i, by omega, Desc.refl, ?_⟩
            rw [hent, ent_swapL_snd l i j (by omega)]
          · have hyj : j < y := lt_of_le_of_ne (desc_le hdjy) (Ne.symm hyne)
            refine ⟨y, hy, desc_trans hdij hdjy, ?_⟩
            rw [hent, ent_swapL_other l i j y (by omega) (by omega)]
        · have hent : ent (downFB f (swapL l i j) j n).1 x = ent (swapL l i j) x :=
            downFB_untouched f _ j n x hdx
          rcases eq_or_ne x i with rfl | hxi
          · refine ⟨j, hjn, hdij, ?_⟩
            rw [hent, ent_swapL_fst l x j (by omega)]
          · have hxj : x ≠ j := fun he => hdx (he ▸ Desc.refl)
            refine ⟨x, hx, hd, ?_⟩
            rw [hent, ent_swapL_other l i j x hxi hxj]
      · rw [if_neg h2]; exact ⟨x, hx, hd, rfl⟩
    · rw [if_neg h1]; exact ⟨x, hx, hd, rfl⟩

end ttlcounter

namespace ttlcounter

theorem downFB_heapExcept (fuel : Nat) :
    ∀ (l : List ExpItem) (i n : Nat), n ≤ l.length → n - i ≤ fuel →
      HeapExcept l n (i + 1) → HeapExcept (downFB fuel l i n).1 n i := by
  induction fuel with
  | zero =>
    intro l i n _ hf _
    intro c hc _ hm
    exfalso; omega
  | succ f ih =>
    intro l i n hn hf hh
    rw [downFB_succ]
    by_cases h1 : 2 * i + 1 < n
    · rw [if_pos h1]
      set j := minChild l i n with hjdef
      have hij : i < j := minChild_gt l i n
      have hjn : j < n := minChild_lt l i n h1
      have hjcase : j = 2 * i + 1 ∨ j = 2 * i + 2 := minChild_cases l i n
      by_cases h2 : (ent l j).expireAt < (ent l i).expireAt
      · rw [if_pos h2]
        show HeapExcept (downFB f (swapL l i j) j n).1 n i
        set l' := swapL l i j with hl'
        have hlen' : n ≤ l'.length := by rw [hl', length_swapL]; exact hn
        have hpre : HeapExcept l' n (j + 1) := by
          intro c hc h0 hm
          have hpi : (c - 1) / 2 ≠ i := by omega
          have hpj : (c - 1) / 2 ≠ j := by omega
          have hci : c ≠ i := by omega
          have hcj : c ≠ j := by omega
          rw [hl', ent_swapL_other l i j _ hpi hpj, ent_swapL_other l i j _ hci hcj]
          exact hh c hc h0 (by omega)
        have hres := ih l' j n hlen' (by omega) hpre
        intro c hc h0 hm
        rcases Nat.lt_or_ge ((c - 1) / 2) j with hpj | hpj
        · rcases eq_or_ne ((c - 1) / 2) i with hpi | hpi
          · rw [hpi]
            have hRi : ent (downFB f l' j n).1 i = ent l j := by
              rw [downFB_untouched f l' j n i (not_desc_of_lt hij), hl',
                ent_swapL_fst l i j (by omega)]
            rw [hRi]
            rcases eq_or_ne c j with hceq | hcne
            · subst hceq
              obtain ⟨y, hy, hdjy, hent⟩ :=
                downFB_mem_desc f l' j n j hlen' hjn Desc.refl
              rw [hent]
              rcases eq_or_ne y j with rfl | hyne
              · rw [hl', ent_swapL_snd l i j (by omega)]
                omega
              · have hyj : j < y := lt_of_le_of_ne (desc_le hdjy) (Ne.symm hyne)
                rw [hl', ent_swapL_other l i j y (by omega) (by omega)]
                exact desc_chain_le hh (by omega) y hdjy hy
            · have hc12 : c = 2 * i + 1 ∨ c = 2 * i + 2 := by omega
              have hcd : ¬ Desc j c := by
                intro hd
                have := desc_parent hd hcne
                exact absurd (desc_le this) (by omega)
              rw [downFB_untouched f l' j n c hcd, hl',
                ent_swapL_other l i j c (by omega) hcne]
              rcases hc12 with rfl | rfl
              · exact minChild_le_left l i n
              · exact minChild_le_right l i n hc
          · have hpd : ¬ Desc j ((c - 1) / 2) := not_desc_of_lt hpj
            have hcd : ¬ Desc j c := by
              intro hd
              have hcj : c ≠ j := by omega
              have := desc_parent hd hcj
              exact absurd (desc_le this) (by omega)
            rw [downFB_untouched f l' j n _ hpd, downFB_untouched f l' j n _ hcd, hl',
              ent_swapL_other l i j _ (by omega) (by omega),
              ent_swapL_other l i j _ (by omega) (by omega)]
            exact hh c hc h0 (by omega)
        · exact hres c hc h0 hpj
      · rw [if_neg h2]
        intro c hc h0 hm
        rcases eq_or_ne ((c - 1) / 2) i with hpi | hpi
        · rw [hpi]
          have hle : (ent l i).expireAt ≤ (ent l j).expireAt := by omega
          have hc12 : c = 2 * i + 1 ∨ c = 2 * i + 2 := by omega
          rcases hc12 with rfl | rfl
          · exact le_trans hle (minChild_le_left l i n)
          · exact le_trans hle (minChild_le_right l i n hc)
        · exact hh c hc h0 (by omega)
    · rw [if_neg h1]
      intro c hc h0 hm
      rcases eq_or_ne ((c - 1) / 2) i with hpi | hpi
      · exfalso; omega
      · exact hh c hc h0 (by omega)

end ttlcounter

namespace ttlcounter

theorem upF_succ (fuel : Nat) (l : List ExpItem) (j : Nat) :
    upF (fuel + 1) l j =
      if (j - 1) / 2 = j then l
      else if (ent l j).expireAt < (ent l ((j - 1) / 2)).expireAt then
        upF fuel (swapL l ((j - 1) / 2) j) ((j - 1) / 2)
      else l := rfl

theorem upF_length (fuel : Nat) :
    ∀ (l : List ExpItem) (j : Nat), (upF fuel l j).length = l.length := by
  induction fuel with
  | zero => intro l j; rfl
  | succ f ih =>
    intro l j
    rw [upF_succ]
    by_cases h1 : (j - 1) / 2 = j
    · rw [if_pos h1]
    · rw [if_neg h1]
      by_cases h2 : (ent l j).expireAt < (ent l ((j - 1) / 2)).expireAt
      · rw [if_pos h2, ih, length_swapL]
      · rw [if_neg h2]

theorem upF_countP (p : ExpItem → Bool) (fuel : Nat) :
    ∀ (l : List ExpItem) (j : Nat), j < l.length →
      (upF fuel l j).countP p = l.countP p := by
  induction fuel with
  | zero => intro l j _; rfl
  | succ f ih =>
    intro l j hj
    rw [upF_succ]
    by_cases h1 : (j - 1) / 2 = j
    · rw [if_pos h1]
    · rw [if_neg h1]
      by_cases h2 : (ent l j).expireAt < (ent l ((j - 1) / 2)).expireAt
      · rw [if_pos h2, ih _ _ (by rw [length_swapL]; omega),
          countP_swapL p l _ _ (by omega) hj]
      · rw [if_neg h2]

theorem heapPush_length (l : List ExpItem) (e : ExpItem) :
    (heapPush l e).length = l.length + 1 := by
  unfold heapPush
  rw [upF_length]
  simp

theorem heapPush_countP (p : ExpItem → Bool) (l : List ExpItem) (e : ExpItem) :
    (heapPush l e).countP p = l.countP p + (if p e then 1 else 0) := by
  unfold heapPush
  rw [upF_countP p _ _ _ (by simp)]
  simp [List.countP_append, List.countP_cons]

theorem heapFix_length (l : List ExpItem) (i : Nat) :
    (heapFix l i).length = l.length := by
  unfold heapFix
  by_cases h : (downFB l.length l i l.length).2 = true
  · rw [if_pos h]
    exact downFB_length _ _ _ _
  · rw [if_neg h, upF_length, downFB_length]

theorem heapFix_countP (p : ExpItem → Bool) (l : List ExpItem) (i : Nat)
    (hi : i < l.length) : (heapFix l i).countP p = l.countP p := by
  unfold heapFix
  by_cases h : (downFB l.length l i l.length).2 = true
  · rw [if_pos h]
    exact downFB_countP p _ _ _ _ (le_refl _)
  · rw [if_neg h, upF_countP p _ _ _ (by rw [downFB_length]; exact hi),
      downFB_countP p _ _ _ _ (le_refl _)]

theorem ent_eq_getElem (l : List ExpItem) (i : Nat) (h : i < l.length) :
    ent l i = l[i] := by
  simp [ent, List.getD_eq_getElem?_getD, List.getElem?_eq_getElem h]

theorem getLast_eq_ent (l : List ExpItem) (h : l ≠ []) :
    l.getLast h = ent l (l.length - 1) := by
  rw [List.getLast_eq_getElem, ent_eq_getElem]

theorem countP_dropLast (p : ExpItem → Bool) (l : List ExpItem) (h : l ≠ []) :
    l.countP p = l.dropLast.countP p + (if p (ent l (l.length - 1)) then 1 else 0) := by
  conv_lhs => rw [← List.dropLast_append_getLast h]
  rw [List.countP_append, getLast_eq_ent]
  simp [List.countP_cons]

theorem ent_dropLast (l : List ExpItem) (x : Nat) (h : x < l.length - 1) :
    ent l.dropLast x = ent l x := by
  have h1 : x < l.dropLast.length := by simp [List.length_dropLast]; omega
  have h2 : x < l.length := by omega
  rw [ent_eq_getElem _ _ h1, ent_eq_getElem _ _ h2]
  exact List.getElem_dropLast l x h1

theorem heapPop_eq (x : ExpItem) (xs : List ExpItem) :
    heapPop (x :: xs) =
      ((downFB (x :: xs).length
          (swapL (x :: xs) 0 ((x :: xs).length - 1)) 0 ((x :: xs).length - 1)).1).dropLast := rfl

theorem heapPop_length (l : List ExpItem) (h : l ≠ []) :
    (heapPop l).length = l.length - 1 := by
  cases l with
  | nil => exact absurd rfl h
  | cons x xs =>
    rw [heapPop_eq]
    simp [List.length_dropLast, downFB_length, length_swapL]

theorem heapPop_countP (p : ExpItem → Bool) (l : List ExpItem) (h : l ≠ []) :
    (heapPop l).countP p + (if p (ent l 0) then 1 else 0) = l.countP p := by
  cases l with
  | nil => exact absurd rfl h
  | cons x xs =>
    rw [heapPop_eq]
    set l0 : List ExpItem := x :: xs with hl0
    set n := l0.length with hn
    have hnpos : 0 < n := by rw [hn, hl0]; simp
    set l1 := swapL l0 0 (n - 1) with hl1
    set l2 := (downFB n l1 0 (n - 1)).1 with hl2
    have hlen1 : l1.length = n := by rw [hl1, length_swapL]
    have hlen2 : l2.length = n := by rw [hl2, downFB_length, hlen1]
    have hc2 : l2.countP p = l0.countP p := by
      rw [hl2, downFB_countP p _ _ _ _ (by omega), hl1,
        countP_swapL p l0 0 (n - 1) (by omega) (by omega)]
    have hne2 : l2 ≠ [] := by
      intro he
      rw [he] at hlen2
      simp at hlen2
      omega
    have hlast : ent l2 (n - 1) = ent l0 0 := by
      rw [hl2, downFB_untouched_ge _ _ _ _ _ (le_refl _), hl1,
        ent_swapL_snd l0 0 (n - 1) (by omega)]
    have := countP_dropLast p l2 hne2
    rw [hlen2, hlast] at this
    omega

theorem heapPop_mem (l : List ExpItem) (e : ExpItem) (h : e ∈ heapPop l) :
    e ∈ l := by
  cases l with
  | nil => simp [heapPop] at h
  | cons x xs =>
    have h1 : 0 < (heapPop (x :: xs)).countP (fun a => a == e) :=
      List.countP_pos_iff.mpr ⟨e, h, by simp⟩
    have h2 := heapPop_countP (fun a => a == e) (x :: xs) (by simp)
    have h3 : 0 < (x :: xs).countP (fun a => a == e) := by omega
    obtain ⟨a, ha, hae⟩ := List.countP_pos_iff.mp h3
    have : a = e := by simpa using hae
    exact this ▸ ha

theorem heapPop_isHeap (l : List ExpItem) (hh : IsHeap l) :
    IsHeap (heapPop l) := by
  cases l with
  | nil => intro c hc _ _; simp [heapPop] at hc
  | cons x xs =>
    rw [heapPop_eq]
    set l0 : List ExpItem := x :: xs with hl0
    set n := l0.length with hn
    have hnpos : 0 < n := by rw [hn, hl0]; simp
    set l1 := swapL l0 0 (n - 1) with hl1
    set l2 := (downFB n l1 0 (n - 1)).1 with hl2
    have hlen1 : l1.length = n := by rw [hl1, length_swapL]
    have hlen2 : l2.length = n := by rw [hl2, downFB_length, hlen1]
    have hpre : HeapExcept l1 (n - 1) 1 := by
      intro c hc h0 hm
      have hpar : (c - 1) / 2 < c := by omega
      rw [hl1, ent_swapL_other l0 0 (n - 1) _ (by omega) (by omega),
        ent_swapL_other l0 0 (n - 1) _ (by omega) (by omega)]
      exact hh c (by omega) h0 (by omega)
    have hres : HeapExcept l2 (n - 1) 0 := by
      rw [hl2]
      exact downFB_heapExcept n l1 0 (n - 1) (by omega) (by omega) hpre
    intro c hc h0 hm
    have hlend : l2.dropLast.length = n - 1 := by
      rw [List.length_dropLast, hlen2]
    rw [hlend] at hc
    rw [ent_dropLast _ _ (by omega), ent_dropLast _ _ (by omega)]
    exact hres c hc h0 hm

theorem isHeap_root_le (l : List ExpItem) (hh : IsHeap l) :
    ∀ x, x < l.length → (ent l 0).expireAt ≤ (ent l x).expireAt := by
  intro x hx
  exact desc_chain_le hh (le_refl 0) x (desc_zero x) hx

theorem heapInitFrom_length (n : Nat) :
    ∀ (k : Nat) (l : List ExpItem), (heapInitFrom n l k).length = l.length := by
  intro k
  induction k with
  | zero => intro l; rfl
  | succ m ih =>
    intro l
    show (heapInitFrom n (downFB n l m n).1 m).length = l.length
    rw [ih, downFB_length]

theorem heapInitFrom_countP (p : ExpItem → Bool) (n : Nat) :
    ∀ (k : Nat) (l : List ExpItem), n ≤ l.length →
      (heapInitFrom n l k).countP p = l.countP p := by
  intro k
  induction k with
  | zero => intro l _; rfl
  | succ m ih =>
    intro l hl
    show (heapInitFrom n (downFB n l m n).1 m).countP p = l.countP p
    rw [ih _ (by rw [downFB_length]; exact hl), downFB_countP p _ _ _ _ hl]

theorem heapInitFrom_heapExcept (n : Nat) :
    ∀ (k : Nat) (l : List ExpItem), n ≤ l.length → k ≤ n → HeapExcept l n k →
      HeapExcept (heapInitFrom n l k) n 0 := by
  intro k
  induction k with
  | zero => intro l _ _ hh; exact hh
  | succ m ih =>
    intro l hl hk hh
    show HeapExcept (heapInitFrom n (downFB n l m n).1 m) n 0
    exact ih _ (by rw [downFB_length]; exact hl) (by omega)
      (downFB_heapExcept n l m n hl (by omega) hh)

theorem heapInit_length (l : List ExpItem) : (heapInit l).length = l.length := by
  unfold heapInit
  exact heapInitFrom_length _ _ _

theorem heapInit_countP (p : ExpItem → Bool) (l : List ExpItem) :
    (heapInit l).countP p = l.countP p := by
  unfold heapInit
  exact heapInitFrom_countP p _ _ _ (le_refl _)

theorem heapInit_isHeap (l : List ExpItem) : IsHeap (heapInit l) := by
  have hh : HeapExcept l l.length (l.length / 2) := by
    intro c hc h0 hm
    exfalso
    omega
  have hres := heapInitFrom_heapExcept l.length (l.length / 2) l (le_refl _)
    (by omega) hh
  have hlen : (heapInit l).length = l.length := heapInit_length l
  intro c hc h0 hm
  rw [hlen] at hc
  exact hres c hc h0 hm

end ttlcounter

namespace ttlcounter

theorem lookup_cons_self (k : String) (v : Item) (rest : List (String × Item)) :
    ((k, v) :: rest).lookup k = some v := by
  simp [List.lookup]

theorem lookup_cons_ne (k0 k : String) (v : Item) (rest : List (String × Item))
    (h : k ≠ k0) : ((k0, v) :: rest).lookup k = rest.lookup k := by
  simp [List.lookup, beq_eq_false_iff_ne.mpr h]

theorem lookup_mapSet_self (m : List (String × Item)) (k : String) (v : Item) :
    (mapSet m k v).lookup k = some v := by
  induction m with
  | nil => simp [mapSet, List.lookup]
  | cons kv rest ih =>
    obtain ⟨k', v'⟩ := kv
    by_cases h : k' = k
    · show (if k' = k then (k, v) :: rest else (k', v') :: mapSet rest k v).lookup k = _
      rw [if_pos h, lookup_cons_self]
    · show (if k' = k then (k, v) :: rest else (k', v') :: mapSet rest k v).lookup k = _
      rw [if_neg h, lookup_cons_ne _ _ _ _ (fun he => h he.symm)]
      exact ih

theorem lookup_mapSet_ne (m : List (String × Item)) (k k' : String) (v : Item)
    (h : k' ≠ k) : (mapSet m k v).lookup k' = m.lookup k' := by
  induction m with
  | nil => simp [mapSet, List.lookup, beq_eq_false_iff_ne.mpr h]
  | cons kv rest ih =>
    obtain ⟨k0, v0⟩ := kv
    show (if k0 = k then (k, v) :: rest else (k0, v0) :: mapSet rest k v).lookup k' = _
    by_cases h0 : k0 = k
    · subst h0
      rw [if_pos rfl, lookup_cons_ne _ _ _ _ h, lookup_cons_ne _ _ _ _ h]
    · rw [if_neg h0]
      by_cases h1 : k' = k0
      · subst h1
        rw [lookup_cons_self, lookup_cons_self]
      · rw [lookup_cons_ne _ _ _ _ h1, lookup_cons_ne _ _ _ _ h1]
        exact ih

theorem lookup_mapDel_self (m : List (String × Item)) (k : String) :
    (mapDel m k).lookup k = none := by
  induction m with
  | nil => simp [mapDel]
  | cons kv rest ih =>
    obtain ⟨k0, v0⟩ := kv
    by_cases h0 : k0 = k
    · have : mapDel ((k0, v0) :: rest) k = mapDel rest k := by
        simp [mapDel, List.filter, h0]
      rw [this]; exact ih
    · have : mapDel ((k0, v0) :: rest) k = (k0, v0) :: mapDel rest k := by
        simp [mapDel, List.filter, beq_eq_false_iff_ne.mpr h0]
      rw [this, lookup_cons_ne _ _ _ _ (fun he => h0 he.symm)]
      exact ih

theorem lookup_mapDel_ne (m : List (String × Item)) (k k' : String)
    (h : k' ≠ k) : (mapDel m k).lookup k' = m.lookup k' := by
  induction m with
  | nil => simp [mapDel]
  | cons kv rest ih =>
    obtain ⟨k0, v0⟩ := kv
    by_cases h0 : k0 = k
    · have he : mapDel ((k0, v0) :: rest) k = mapDel rest k := by
        simp [mapDel, List.filter, h0]
      subst h0
      rw [he, lookup_cons_ne _ _ _ _ h]
      exact ih
    · have he : mapDel ((k0, v0) :: rest) k = (k0, v0) :: mapDel rest k := by
        simp [mapDel, List.filter, beq_eq_false_iff_ne.mpr h0]
      rw [he]
      by_cases h1 : k' = k0
      · subst h1
        rw [lookup_cons_self, lookup_cons_self]
      · rw [lookup_cons_ne _ _ _ _ h1, lookup_cons_ne _ _ _ _ h1]
        exact ih

theorem findKeyIdx_some (k : String) :
    ∀ (q : List ExpItem) (i : Nat), findKeyIdx k q = some i →
      i < q.length ∧ (ent q i).key = k := by
  intro q
  induction q with
  | nil => intro i h; simp [findKeyIdx] at h
  | cons e rest ih =>
    intro i h
    by_cases he : e.key = k
    · simp [findKeyIdx, he] at h
      subst h
      exact ⟨by simp, he⟩
    · simp [findKeyIdx, he] at h
      obtain ⟨i', hi', rfl⟩ := h
      obtain ⟨h1, h2⟩ := ih i' hi'
      exact ⟨by simp; omega, h2⟩

theorem updateKeyInQueue_none (q : List ExpItem) (k : String) (x : Int)
    (h : findKeyIdx k q = none) : updateKeyInQueue q k x = q := by
  unfold updateKeyInQueue
  rw [h]

theorem updateKeyInQueue_found (q : List ExpItem) (k : String) (x : Int)
    (i : Nat) (h : findKeyIdx k q = some i) :
    updateKeyInQueue q k x = heapFix (q.set i ⟨k, x⟩) i := by
  unfold updateKeyInQueue
  rw [h]

theorem updateKeyInQueue_countP (q : List ExpItem) (k : String) (x : Int)
    (i : Nat) (h : findKeyIdx k q = some i) (p : ExpItem → Bool) :
    (updateKeyInQueue q k x).countP p = (q.set i ⟨k, x⟩).countP p := by
  rw [updateKeyInQueue_found q k x i h]
  exact heapFix_countP p _ i (by simp; exact (findKeyIdx_some k q i h).1)

theorem updateKeyInQueue_countKey (q : List ExpItem) (k : String) (x : Int)
    (k' : String) : countKey k' (updateKeyInQueue q k x) = countKey k' q := by
  cases h : findKeyIdx k q with
  | none => rw [updateKeyInQueue_none q k x h]
  | some i =>
    obtain ⟨hi, hkey⟩ := findKeyIdx_some k q i h
    unfold countKey
    rw [updateKeyInQueue_countP q k x i h]
    have := countP_set (fun e => e.key == k') q i ⟨k, x⟩ hi
    simp only at this
    simp only [hkey] at this
    omega

theorem updateKeyInQueue_length (q : List ExpItem) (k : String) (x : Int) :
    (updateKeyInQueue q k x).length = q.length := by
  cases h : findKeyIdx k q with
  | none => rw [updateKeyInQueue_none q k x h]
  | some i =>
    rw [updateKeyInQueue_found q k x i h, heapFix_length]
    simp

theorem heapPush_countKey (q : List ExpItem) (e : ExpItem) (k' : String) :
    countKey k' (heapPush q e) =
      countKey k' q + (if e.key == k' then 1 else 0) := by
  unfold countKey
  exact heapPush_countP _ q e

theorem heapPop_countKey (q : List ExpItem) (h : q ≠ []) (k' : String) :
    countKey k' (heapPop q) + (if (ent q 0).key == k' then 1 else 0) =
      countKey k' q := by
  unfold countKey
  exact heapPop_countP _ q h

end ttlcounter

namespace ttlcounter

theorem countKey_pos_iff (k : String) (q : List ExpItem) :
    0 < countKey k q ↔ ∃ e ∈ q, e.key = k := by
  unfold countKey
  rw [List.countP_pos_iff]
  constructor
  · rintro ⟨e, he, hk⟩
    exact ⟨e, he, by simpa using hk⟩
  · rintro ⟨e, he, hk⟩
    exact ⟨e, he, by simpa using hk⟩

theorem vacDel_lookup_ne (items : List (String × Item)) (root : ExpItem)
    (ttl : Int) (k : String) (h : root.key ≠ k) :
    (vacDel items root ttl).lookup k = items.lookup k := by
  cases hl : (items.lookup root.key : Option Item) with
  | none => simp only [vacDel, hl]
  | some it =>
    simp only [vacDel, hl]
    by_cases hg : it.access ≤ root.expireAt - ttl
    · rw [if_pos hg]
      exact lookup_mapDel_ne items root.key k (Ne.symm h)
    · rw [if_neg hg]

theorem vacDel_lookup_cases (items : List (String × Item)) (root : ExpItem)
    (ttl : Int) (k : String) :
    (vacDel items root ttl).lookup k = items.lookup k ∨
    (vacDel items root ttl).lookup k = none := by
  by_cases h : root.key = k
  · subst h
    cases hl : (items.lookup root.key : Option Item) with
    | none => simp [vacDel, hl]
    | some it =>
      simp only [vacDel, hl]
      by_cases hg : it.access ≤ root.expireAt - ttl
      · rw [if_pos hg]
        exact Or.inr (lookup_mapDel_self items root.key)
      · rw [if_neg hg]
        exact Or.inl hl
  · exact Or.inl (vacDel_lookup_ne items root ttl k h)

theorem vacDel_keep (items : List (String × Item)) (root : ExpItem)
    (ttl : Int) (k : String) (it : Item) (hit : items.lookup k = some it)
    (hfresh : root.key = k → root.expireAt < it.access + ttl) :
    (vacDel items root ttl).lookup k = some it := by
  by_cases h : root.key = k
  · subst h
    simp only [vacDel, hit]
    have hg : ¬ it.access ≤ root.expireAt - ttl := by
      have := hfresh rfl
      omega
    rw [if_neg hg]
    exact hit
  · rw [vacDel_lookup_ne items root ttl k h]
    exact hit

theorem vacDel_deleted (items : List (String × Item)) (root : ExpItem)
    (ttl : Int) (k : String) (it : Item) (hit : items.lookup k = some it)
    (hne : (vacDel items root ttl).lookup k ≠ some it) :
    root.key = k ∧ it.access ≤ root.expireAt - ttl := by
  by_cases h : root.key = k
  · subst h
    refine ⟨rfl, ?_⟩
    by_contra hg
    exact hne (vacDel_keep items root ttl root.key it hit (fun _ => by omega))
  · exact absurd (by rw [vacDel_lookup_ne items root ttl k h]; exact hit) hne

theorem vacLoop_nil (fuel : Nat) (items : List (String × Item)) (ttl now : Int) :
    vacLoop fuel items [] ttl now = (items, []) := by
  cases fuel <;> rfl

theorem vacLoop_cons_le (fuel : Nat) (items : List (String × Item))
    (root : ExpItem) (rest : List ExpItem) (ttl now : Int)
    (h : root.expireAt ≤ now) :
    vacLoop (fuel + 1) items (root :: rest) ttl now =
      vacLoop fuel (vacDel items root ttl) (heapPop (root :: rest)) ttl now := by
  simp only [vacLoop]
  rw [if_pos h]

theorem vacLoop_cons_gt (fuel : Nat) (items : List (String × Item))
    (root : ExpItem) (rest : List ExpItem) (ttl now : Int)
    (h : ¬ root.expireAt ≤ now) :
    vacLoop (fuel + 1) items (root :: rest) ttl now = (items, root :: rest) := by
  simp only [vacLoop]
  rw [if_neg h]

theorem vacLoop_no_entry (fuel : Nat) :
    ∀ (items : List (String × Item)) (q : List ExpItem) (ttl now : Int)
      (k : String), countKey k q = 0 →
      countKey k (vacLoop fuel items q ttl now).2 = 0 ∧
      (vacLoop fuel items q ttl now).1.lookup k = items.lookup k := by
  induction fuel with
  | zero => intro items q ttl now k h; exact ⟨h, rfl⟩
  | succ f ih =>
    intro items q ttl now k h
    match q with
    | [] => rw [vacLoop_nil]; exact ⟨h, rfl⟩
    | root :: rest =>
      by_cases hle : root.expireAt ≤ now
      · rw [vacLoop_cons_le f items root rest ttl now hle]
        have hpopc := heapPop_countKey (root :: rest) (by simp) k
        have hroot : ent (root :: rest) 0 = root := rfl
        rw [hroot] at hpopc
        have hrk : root.key ≠ k := by
          intro he
          rw [he] at hpopc
          simp only [beq_self_eq_true, if_true] at hpopc
          omega
        have hq' : countKey k (heapPop (root :: rest)) = 0 := by omega
        obtain ⟨h1, h2⟩ := ih (vacDel items root ttl) (heapPop (root :: rest))
          ttl now k hq'
        exact ⟨h1, by rw [h2, vacDel_lookup_ne items root ttl k hrk]⟩
      · rw [vacLoop_cons_gt f items root rest ttl now hle]
        exact ⟨h, rfl⟩

theorem vacLoop_lookup_cases (fuel : Nat) :
    ∀ (items : List (String × Item)) (q : List ExpItem) (ttl now : Int)
      (k : String),
      (vacLoop fuel items q ttl now).1.lookup k = items.lookup k ∨
      (vacLoop fuel items q ttl now).1.lookup k = none := by
  induction fuel with
  | zero => intro items q ttl now k; exact Or.inl rfl
  | succ f ih =>
    intro items q ttl now k
    match q with
    | [] => rw [vacLoop_nil]; exact Or.inl rfl
    | root :: rest =>
      by_cases hle : root.expireAt ≤ now
      · rw [vacLoop_cons_le f items root rest ttl now hle]
        rcases ih (vacDel items root ttl) (heapPop (root :: rest)) ttl now k
          with h1 | h1
        · rcases vacDel_lookup_cases items root ttl k with h2 | h2
          · exact Or.inl (by rw [h1, h2])
          · exact Or.inr (by rw [h1, h2])
        · exact Or.inr h1
      · rw [vacLoop_cons_gt f items root rest ttl now hle]
        exact Or.inl rfl

theorem vacLoop_keep (fuel : Nat) :
    ∀ (items : List (String × Item)) (q : List ExpItem) (ttl now : Int)
      (k : String) (it : Item), items.lookup k = some it →
      (∀ e ∈ q, e.key = k → e.expireAt < it.access + ttl) →
      (vacLoop fuel items q ttl now).1.lookup k = some it := by
  induction fuel with
  | zero => intro items q ttl now k it hit _; exact hit
  | succ f ih =>
    intro items q ttl now k it hit hfresh
    match q with
    | [] => rw [vacLoop_nil]; exact hit
    | root :: rest =>
      by_cases hle : root.expireAt ≤ now
      · rw [vacLoop_cons_le f items root rest ttl now hle]
        refine ih (vacDel items root ttl) (heapPop (root :: rest)) ttl now k it
          (vacDel_keep items root ttl k it hit
            (fun he => hfresh root (by simp) he)) ?_
        intro e he hek
        exact hfresh e (heapPop_mem _ e he) hek
      · rw [vacLoop_cons_gt f items root rest ttl now hle]
        exact hit

theorem vacLoop_deleted (fuel : Nat) :
    ∀ (items : List (String × Item)) (q : List ExpItem) (ttl now : Int)
      (k : String) (it : Item), items.lookup k = some it →
      (vacLoop fuel items q ttl now).1.lookup k = none →
      ∃ e, e ∈ q ∧ e.key = k ∧ e.expireAt ≤ now ∧
        it.access ≤ e.expireAt - ttl := by
  induction fuel with
  | zero =>
    intro items q ttl now k it hit hnone
    have he : (vacLoop 0 items q ttl now).1 = items := rfl
    rw [he, hit] at hnone
    exact absurd hnone (by simp)
  | succ f ih =>
    intro items q ttl now k it hit hnone
    match q with
    | [] =>
      rw [vacLoop_nil] at hnone
      simp only at hnone
      rw [hit] at hnone
      exact absurd hnone (by simp)
    | root :: rest =>
      by_cases hle : root.expireAt ≤ now
      · rw [vacLoop_cons_le f items root rest ttl now hle] at hnone
        by_cases hdel : (vacDel items root ttl).lookup k = some it
        · obtain ⟨e, he, h1, h2, h3⟩ :=
            ih (vacDel items root ttl) (heapPop (root :: rest)) ttl now k it
              hdel hnone
          exact ⟨e, heapPop_mem _ e he, h1, h2, h3⟩
        · obtain ⟨h1, h2⟩ := vacDel_deleted items root ttl k it hit hdel
          exact ⟨root, by simp, h1, hle, h2⟩
      · rw [vacLoop_cons_gt f items root rest ttl now hle] at hnone
        simp only at hnone
        rw [hit] at hnone
        exact absurd hnone (by simp)

end ttlcounter

namespace ttlcounter

theorem countP_congr_mem (l : List ExpItem) (p q : ExpItem → Bool)
    (h : ∀ e ∈ l, p e = q e) : l.countP p = l.countP q := by
  induction l with
  | nil => rfl
  | cons x xs ih =>
    rw [List.countP_cons, List.countP_cons, h x (by simp),
      ih (fun e he => h e (by simp [he]))]

theorem mem_expireAt_gt (q : List ExpItem) (now : Int) (hh : IsHeap q)
    (hroot : ¬ (ent q 0).expireAt ≤ now) :
    ∀ e ∈ q, now < e.expireAt := by
  intro e he
  obtain ⟨i, hi, hei⟩ := List.mem_iff_getElem.mp he
  have h1 := isHeap_root_le q hh i hi
  rw [ent_eq_getElem q i hi, hei] at h1
  omega

theorem vacLoop_countP (fuel : Nat) :
    ∀ (items : List (String × Item)) (q : List ExpItem) (ttl now : Int),
      q.length ≤ fuel → IsHeap q → ∀ p : ExpItem → Bool,
      (vacLoop fuel items q ttl now).2.countP p =
        q.countP (fun e => p e && decide (now < e.expireAt)) := by
  induction fuel with
  | zero =>
    intro items q ttl now hlen _ p
    have hq : q = [] := List.length_eq_zero.mp (by omega)
    subst hq
    rfl
  | succ f ih =>
    intro items q ttl now hlen hh p
    match q with
    | [] => rw [vacLoop_nil]; rfl
    | root :: rest =>
      by_cases hle : root.expireAt ≤ now
      · rw [vacLoop_cons_le f items root rest ttl now hle]
        have hlen' : (heapPop (root :: rest)).length ≤ f := by
          rw [heapPop_length _ (by simp)]
          simp at hlen ⊢
          omega
        rw [ih (vacDel items root ttl) (heapPop (root :: rest)) ttl now hlen'
          (heapPop_isHeap _ hh) p]
        have hpc := heapPop_countP
          (fun e => p e && decide (now < e.expireAt)) (root :: rest) (by simp)
        have hroot : ent (root :: rest) 0 = root := rfl
        rw [hroot] at hpc
        have hfalse : (p root && decide (now < root.expireAt)) = false := by
          have : ¬ now < root.expireAt := by omega
          simp [this]
        simp only at hpc
        simp only [hfalse, Bool.false_eq_true, if_false] at hpc
        omega
      · rw [vacLoop_cons_gt f items root rest ttl now hle]
        have hgt := mem_expireAt_gt (root :: rest) now hh hle
        exact countP_congr_mem (root :: rest) p _
          (fun e he => by simp [hgt e he])

theorem vacLoop_isHeap (fuel : Nat) :
    ∀ (items : List (String × Item)) (q : List ExpItem) (ttl now : Int),
      IsHeap q → IsHeap (vacLoop fuel items q ttl now).2 := by
  induction fuel with
  | zero => intro items q ttl now hh; exact hh
  | succ f ih =>
    intro items q ttl now hh
    match q with
    | [] => rw [vacLoop_nil]; exact hh
    | root :: rest =>
      by_cases hle : root.expireAt ≤ now
      · rw [vacLoop_cons_le f items root rest ttl now hle]
        exact ih _ _ _ _ (heapPop_isHeap _ hh)
      · rw [vacLoop_cons_gt f items root rest ttl now hle]
        exact hh

theorem vacLoop_countKey_le (fuel : Nat) :
    ∀ (items : List (String × Item)) (q : List ExpItem) (ttl now : Int)
      (k : String),
      countKey k (vacLoop fuel items q ttl now).2 ≤ countKey k q := by
  induction fuel with
  | zero => intro items q ttl now k; exact le_refl _
  | succ f ih =>
    intro items q ttl now k
    match q with
    | [] => rw [vacLoop_nil]
    | root :: rest =>
      by_cases hle : root.expireAt ≤ now
      · rw [vacLoop_cons_le f items root rest ttl now hle]
        have h1 := ih (vacDel items root ttl) (heapPop (root :: rest)) ttl now k
        have h2 := heapPop_countKey (root :: rest) (by simp) k
        omega
      · rw [vacLoop_cons_gt f items root rest ttl now hle]

theorem vacLoop_inv (fuel : Nat) :
    ∀ (items : List (String × Item)) (q : List ExpItem) (ttl now : Int),
      (∀ k, countKey k q ≤ 1) →
      (∀ k, 0 < countKey k q → (items.lookup k).isSome) →
      (∀ k, countKey k (vacLoop fuel items q ttl now).2 ≤ 1) ∧
      (∀ k, 0 < countKey k (vacLoop fuel items q ttl now).2 →
        ((vacLoop fuel items q ttl now).1.lookup k).isSome) := by
  induction fuel with
  | zero => intro items q ttl now h1 h2; exact ⟨h1, h2⟩
  | succ f ih =>
    intro items q ttl now h1 h2
    match q with
    | [] => rw [vacLoop_nil]; exact ⟨h1, h2⟩
    | root :: rest =>
      by_cases hle : root.expireAt ≤ now
      · rw [vacLoop_cons_le f items root rest ttl now hle]
        have hpopc : ∀ k, countKey k (heapPop (root :: rest)) +
            (if root.key == k then 1 else 0) = countKey k (root :: rest) := by
          intro k
          have := heapPop_countKey (root :: rest) (by simp) k
          exact this
        refine ih (vacDel items root ttl) (heapPop (root :: rest)) ttl now
          (fun k => by have := hpopc k; have := h1 k; omega) ?_
        intro k hk
        have hne : root.key ≠ k := by
          intro he
          have hc := hpopc k
          rw [he] at hc
          simp only [beq_self_eq_true, if_true] at hc
          have := h1 k
          omega
        rw [vacDel_lookup_ne items root ttl k hne]
        have hc := hpopc k
        have : 0 < countKey k (root :: rest) := by
          by_cases hb : (root.key == k) = true <;> omega
        exact h2 k this
      · rw [vacLoop_cons_gt f items root rest ttl now hle]
        exact ⟨h1, h2⟩

end ttlcounter

namespace ttlcounter

theorem inc_absent (s : CState) (key : String) (now : Int)
    (hl : (s.items.lookup key : Option Item) = none) :
    inc s key now =
      { s with items := mapSet s.items key ⟨1, now⟩,
               queue := updateKeyInQueue (heapPush s.queue ⟨key, now + s.ttl⟩)
                 key (now + s.ttl) } := by
  simp only [inc, hl]

theorem inc_present (s : CState) (key : String) (now : Int) (it : Item)
    (hl : (s.items.lookup key : Option Item) = some it) :
    inc s key now =
      { s with items := mapSet s.items key ⟨it.value + 1, now⟩,
               queue := updateKeyInQueue s.queue key (now + s.ttl) } := by
  simp only [inc, hl]

theorem get_none (s : CState) (key : String)
    (hl : (s.items.lookup key : Option Item) = none) :
    get s key = (0, s) := by
  simp only [get, hl]

theorem get_some (s : CState) (key : String) (it : Item)
    (hl : (s.items.lookup key : Option Item) = some it) :
    get s key = (it.value, s) := by
  simp only [get, hl]

theorem touch_absent (s : CState) (key : String) (now : Int)
    (hl : (s.items.lookup key : Option Item) = none) :
    touch s key now = (0, s) := by
  simp only [touch, hl]

theorem touch_present (s : CState) (key : String) (now : Int) (it : Item)
    (hl : (s.items.lookup key : Option Item) = some it) :
    touch s key now =
      (it.value,
        { s with items := mapSet s.items key ⟨it.value, now⟩,
                 queue := updateKeyInQueue s.queue key (now + s.ttl) }) := by
  simp only [touch, hl]

theorem reset_absent (s : CState) (key : String) (now : Int)
    (hl : (s.items.lookup key : Option Item) = none) :
    reset s key now = s := by
  simp only [reset, hl]

theorem reset_present (s : CState) (key : String) (now : Int) (it : Item)
    (hl : (s.items.lookup key : Option Item) = some it) :
    reset s key now = { s with items := mapSet s.items key ⟨0, now⟩ } := by
  simp only [reset, hl]

theorem setTTL_same (s : CState) (v : Int)
    (h : s.ttl = if v ≤ 0 then DefaultTTL else v) :
    setTTL s v = { s with ttl := if v ≤ 0 then DefaultTTL else v } := by
  simp only [setTTL]
  rw [if_pos h]

theorem setTTL_diff (s : CState) (v : Int)
    (h : ¬ s.ttl = (if v ≤ 0 then DefaultTTL else v)) :
    setTTL s v =
      { s with ttl := if v ≤ 0 then DefaultTTL else v,
               queue := heapInit (s.queue.map
                 (fun e => ⟨e.key, e.expireAt - s.ttl +
                   (if v ≤ 0 then DefaultTTL else v)⟩)) } := by
  simp only [setTTL]
  rw [if_neg h]

theorem vacuum_eq (s : CState) (now : Int) :
    vacuum s now =
      { s with items := (vacLoop s.queue.length s.items s.queue s.ttl now).1,
               queue := (vacLoop s.queue.length s.items s.queue s.ttl now).2 } := rfl

theorem syncInv_spec (s : CState) (h : syncInv s = true) :
    ∀ e ∈ s.queue, ∀ it : Item, s.items.lookup e.key = some it →
      e.expireAt ≤ it.access + s.ttl := by
  unfold syncInv at h
  rw [List.all_eq_true] at h
  intro e he it hit
  have hthis := h e he
  simp only [hit] at hthis
  exact of_decide_eq_true hthis

theorem countKey_map_reanchor (q : List ExpItem) (k : String) (g : ExpItem → Int) :
    countKey k (q.map (fun e => ⟨e.key, g e⟩)) = countKey k q := by
  unfold countKey
  rw [List.countP_map]
  rfl

theorem countKey_zero_of_lookup_none (s : CState) (key : String)
    (hl : (s.items.lookup key : Option Item) = none)
    (h2 : ∀ k, 0 < countKey k s.queue → (s.items.lookup k).isSome) :
    countKey key s.queue = 0 := by
  by_contra hne
  have := h2 key (by omega)
  rw [hl] at this
  simp at this

theorem applyOp_inv (s : CState) (op : COp) (hop : delFree op = true)
    (h1 : ∀ k, countKey k s.queue ≤ 1)
    (h2 : ∀ k, 0 < countKey k s.queue → (s.items.lookup k).isSome) :
    (∀ k, countKey k (applyOp s op).queue ≤ 1) ∧
    (∀ k, 0 < countKey k (applyOp s op).queue →
      ((applyOp s op).items.lookup k).isSome) := by
  cases op with
  | inc key now =>
    simp only [applyOp]
    cases hl : (s.items.lookup key : Option Item) with
    | none =>
      rw [inc_absent s key now hl]
      have hzero := countKey_zero_of_lookup_none s key hl h2
      have hcnt : ∀ k, countKey k
          (updateKeyInQueue (heapPush s.queue ⟨key, now + s.ttl⟩) key (now + s.ttl)) =
          countKey k s.queue + (if key == k then 1 else 0) := by
        intro k
        rw [updateKeyInQueue_countKey, heapPush_countKey]
      constructor
      · intro k
        rw [hcnt k]
        by_cases hk : key = k
        · subst hk
          simp only [beq_self_eq_true, if_true]
          omega
        · simp only [beq_eq_false_iff_ne.mpr hk, Bool.false_eq_true, if_false]
          have := h1 k
          omega
      · intro k hk
        by_cases hkey : k = key
        · subst hkey
          rw [lookup_mapSet_self]
          rfl
        · rw [lookup_mapSet_ne s.items key k _ hkey]
          rw [hcnt k, beq_eq_false_iff_ne.mpr (fun he => hkey he.symm)] at hk
          simp only [Bool.false_eq_true, if_false] at hk
          exact h2 k (by omega)
    | some it =>
      rw [inc_present s key now it hl]
      constructor
      · intro k
        rw [updateKeyInQueue_countKey]
        exact h1 k
      · intro k hk
        rw [updateKeyInQueue_countKey] at hk
        by_cases hkey : k = key
        · subst hkey
          rw [lookup_mapSet_self]
          rfl
        · rw [lookup_mapSet_ne s.items key k _ hkey]
          exact h2 k hk
  | touch key now =>
    simp only [applyOp]
    cases hl : (s.items.lookup key : Option Item) with
    | none =>
      rw [touch_absent s key now hl]
      exact ⟨h1, h2⟩
    | some it =>
      rw [touch_present s key now it hl]
      constructor
      · intro k
        rw [updateKeyInQueue_countKey]
        exact h1 k
      · intro k hk
        rw [updateKeyInQueue_countKey] at hk
        by_cases hkey : k = key
        · subst hkey
          rw [lookup_mapSet_self]
          rfl
        · rw [lookup_mapSet_ne s.items key k _ hkey]
          exact h2 k hk
  | del key => simp [delFree] at hop
  | reset key now =>
    simp only [applyOp]
    cases hl : (s.items.lookup key : Option Item) with
    | none =>
      rw [reset_absent s key now hl]
      exact ⟨h1, h2⟩
    | some it =>
      rw [reset_present s key now it hl]
      refine ⟨h1, ?_⟩
      intro k hk
      by_cases hkey : k = key
      · subst hkey
        rw [lookup_mapSet_self]
        rfl
      · rw [lookup_mapSet_ne s.items key k _ hkey]
        exact h2 k hk
  | setTTL v =>
    simp only [applyOp]
    by_cases heq : s.ttl = (if v ≤ 0 then DefaultTTL else v)
    · rw [setTTL_same s v heq]
      exact ⟨h1, h2⟩
    · rw [setTTL_diff s v heq]
      have hcnt : ∀ k, countKey k (heapInit (s.queue.map
          (fun e => ⟨e.key, e.expireAt - s.ttl +
            (if v ≤ 0 then DefaultTTL else v)⟩))) = countKey k s.queue := by
        intro k
        unfold countKey
        rw [heapInit_countP]
        exact countKey_map_reanchor s.queue k _
      constructor
      · intro k
        rw [hcnt k]
        exact h1 k
      · intro k hk
        rw [hcnt k] at hk
        exact h2 k hk
  | vacuum now =>
    simp only [applyOp]
    rw [vacuum_eq s now]
    exact vacLoop_inv s.queue.length s.items s.queue s.ttl now h1 h2

theorem runOps_nil (s : CState) : runOps s [] = s := rfl

theorem runOps_cons (s : CState) (op : COp) (ops : List COp) :
    runOps s (op :: ops) = runOps (applyOp s op) ops := rfl

theorem runOps_inv (ops : List COp) :
    ∀ s : CState, (∀ op ∈ ops, delFree op = true) →
      (∀ k, countKey k s.queue ≤ 1) →
      (∀ k, 0 < countKey k s.queue → (s.items.lookup k).isSome) →
      (∀ k, countKey k (runOps s ops).queue ≤ 1) ∧
      (∀ k, 0 < countKey k (runOps s ops).queue →
        ((runOps s ops).items.lookup k).isSome) := by
  induction ops with
  | nil => intro s _ h1 h2; exact ⟨h1, h2⟩
  | cons op ops ih =>
    intro s hops h1 h2
    rw [runOps_cons]
    obtain ⟨h1', h2'⟩ := applyOp_inv s op (hops op (by simp)) h1 h2
    exact ih (applyOp s op) (fun o ho => hops o (by simp [ho])) h1' h2'

end ttlcounter

/-! ## Claim theorems -/

/-- C3 counterexample: with a metrics sink configured, an invocation in which
the handler panics produces no metrics observation at all (the observation
call sits after the handler call and is skipped by the unwinding), refuting
the claim that exactly one observation is reported per handler invocation
including panicking invocations. -/
theorem C3_counterexample :
    ¬ ((jobticker.executeHandler "job" true 0 5
        (jobticker.HandlerResult.panicked "boom")).2.length = 1) := by
  decide

/-- C3 (amended): when a metrics sink is configured, exactly one observation
(start timestamp, elapsed duration, and the returned error, whose nil-ness is
the success flag) is reported per handler invocation in which the handler
returns, with or without error; an invocation in which the handler panics
reports no observation. -/
theorem C3_metrics_observation (name : String) (m : Bool)
    (startedAt elapsed : Int) (res : jobticker.HandlerResult) (hm : m = true) :
    ((res = .ok ∨ ∃ e, res = .fail e) →
      (jobticker.executeHandler name m startedAt elapsed res).2.length = 1) ∧
    (∀ v, res = .panicked v →
      (jobticker.executeHandler name m startedAt elapsed res).2 = []) ∧
    (∀ o ∈ (jobticker.executeHandler name m startedAt elapsed res).2,
      o.start = startedAt ∧ o.elapsed = elapsed ∧
        (o.err = none ↔ res = .ok)) := by
  subst hm
  cases res with
  | ok =>
    refine ⟨fun _ => by simp [jobticker.executeHandler], ?_, ?_⟩
    · intro v hv; exact absurd hv (by simp)
    · intro o ho
      simp [jobticker.executeHandler] at ho
      subst ho
      simp
  | fail e =>
    refine ⟨fun _ => by simp [jobticker.executeHandler], ?_, ?_⟩
    · intro v hv; exact absurd hv (by simp)
    · intro o ho
      simp [jobticker.executeHandler] at ho
      subst ho
      simp
  | panicked v =>
    refine ⟨?_, fun _ _ => by simp [jobticker.executeHandler], ?_⟩
    · intro hv
      rcases hv with hv | ⟨e, hv⟩ <;> simp at hv
    · intro o ho
      simp [jobticker.executeHandler] at ho

/-- C3 witness: concrete invocations with a configured sink — a returning
handler yields exactly one observation, a panicking one yields none. -/
theorem C3_metrics_observation_witness :
    (jobticker.executeHandler "job" true 2 7 jobticker.HandlerResult.ok).2.length = 1 ∧
    (jobticker.executeHandler "job" true 2 7
      (jobticker.HandlerResult.panicked "boom")).2 = [] := by
  constructor
  · exact (C3_metrics_observation "job" true 2 7 .ok rfl).1 (Or.inl rfl)
  · exact (C3_metrics_observation "job" true 2 7 (.panicked "boom") rfl).2.1
      "boom" rfl

/-- C8: calling Start on a ticker that is already running changes neither the
started flag, nor the quit channel, nor the number of spawned loops; it only
appends the debug diagnostic "name: already been started"; consequently
starting a fresh ticker twice leaves exactly one active loop. -/
theorem C8_start_idempotent :
    (∀ (name : String) (t : jobticker.TickerState), t.started = true →
      (jobticker.tickerStart name t).started = t.started ∧
      (jobticker.tickerStart name t).hasQuit = t.hasQuit ∧
      (jobticker.tickerStart name t).quitGen = t.quitGen ∧
      (jobticker.tickerStart name t).loops = t.loops ∧
      (jobticker.tickerStart name t).log =
        t.log ++ [⟨.debug, name ++ ": already been started"⟩]) ∧
    (∀ name : String,
      (jobticker.tickerStart name
        (jobticker.tickerStart name jobticker.tickerNew)).loops = 1) := by
  constructor
  · intro name t ht
    simp [jobticker.tickerStart, ht]
  · intro name
    simp [jobticker.tickerStart, jobticker.tickerNew]

/-- C8 witness: a concrete double start — the second call spawns no loop and
only logs the diagnostic. -/
theorem C8_start_idempotent_witness :
    (jobticker.tickerStart "job"
        (jobticker.tickerStart "job" jobticker.tickerNew)).loops =
      (jobticker.tickerStart "job" jobticker.tickerNew).loops ∧
    (jobticker.tickerStart "job"
        (jobticker.tickerStart "job" jobticker.tickerNew)).log =
      (jobticker.tickerStart "job" jobticker.tickerNew).log ++
        [⟨.debug, "job" ++ ": already been started"⟩] := by
  have h := C8_start_idempotent.1 "job"
    (jobticker.tickerStart "job" jobticker.tickerNew) (by decide)
  exact ⟨h.2.2.2.1, h.2.2.2.2⟩

/-- C1 counterexample: after `Inc("a")` at time 0 with TTL 1, the item is
logically expired at time 5 (`lastAccess + ttl = 1 ≤ 5`), yet `Get("a")`
still returns the stored value 1, not 0 — `Get` performs no lazy-expiration
masking. -/
theorem C1_counterexample :
    ttlcounter.logicallyExpired (ttlcounter.inc (ttlcounter.new 1) "a" 0) "a" 5
        = true ∧
    ¬ ((ttlcounter.get (ttlcounter.inc (ttlcounter.new 1) "a" 0) "a").1 = 0) := by
  decide

/-- C1 (amended): `Get(k)` returns 0 exactly when `k` is physically absent
from the map; when `k` is present it returns the stored counter value
regardless of logical expiration (no `now` is even consulted); `Get` never
refreshes `lastAccess` and never mutates the map, the TTL or the expiration
index (the whole state is returned unchanged). -/
theorem C1_get_spec (s : ttlcounter.CState) (key : String) :
    ((ttlcounter.get s key).2 = s) ∧
    (s.items.lookup key = none → (ttlcounter.get s key).1 = 0) ∧
    (∀ it : ttlcounter.Item, s.items.lookup key = some it →
      (ttlcounter.get s key).1 = it.value) := by
  refine ⟨?_, ?_, ?_⟩
  · cases hl : (s.items.lookup key : Option ttlcounter.Item) with
    | none => rw [ttlcounter.get_none s key hl]
    | some it => rw [ttlcounter.get_some s key it hl]
  · intro hl
    rw [ttlcounter.get_none s key hl]
  · intro it hl
    rw [ttlcounter.get_some s key it hl]

/-- C1 witness: concrete reads — a present (and logically expired) key reads
back its stored value, an absent key reads 0, and the state is unchanged. -/
theorem C1_get_spec_witness :
    (ttlcounter.get (ttlcounter.inc (ttlcounter.new 1) "a" 0) "a").1 = 1 ∧
    (ttlcounter.get (ttlcounter.new 1) "b").1 = 0 ∧
    (ttlcounter.get (ttlcounter.new 1) "b").2 = ttlcounter.new 1 := by
  have h1 := (C1_get_spec (ttlcounter.inc (ttlcounter.new 1) "a" 0) "a").2.2
    ⟨1, 0⟩ (by decide)
  have h2 := (C1_get_spec (ttlcounter.new 1) "b").2.1 (by decide)
  have h3 := (C1_get_spec (ttlcounter.new 1) "b").1
  exact ⟨h1, h2, h3⟩

/-- C2 counterexample: after `Inc("a")` at time 0 with TTL 1, the item is
logically expired at time 7, yet `Touch("a")` at time 7 returns the stored
value 1 (not 0) and does refresh the item (`lastAccess` becomes 7), refuting
the claim that an expired key yields 0 and no refresh. -/
theorem C2_counterexample :
    ttlcounter.logicallyExpired (ttlcounter.inc (ttlcounter.new 1) "a" 0) "a" 7
        = true ∧
    ¬ ((ttlcounter.touch (ttlcounter.inc (ttlcounter.new 1) "a" 0) "a" 7).1 = 0) ∧
    (ttlcounter.touch (ttlcounter.inc (ttlcounter.new 1) "a" 0) "a" 7).2.items.lookup "a"
        = some ⟨1, 7⟩ := by
  decide

/-- C2 (amended): `Touch(k)` at time `now` returns 0 and changes nothing
exactly when `k` is physically absent; when `k` is present — logically
expired or not — it returns the stored value, sets the item's `lastAccess`
to `now` (value unchanged, other keys unchanged, TTL unchanged), and updates
the first expiration-index entry for `k`, if one exists, to
`expireAt = now + ttl`, re-heapifying; if no index entry for `k` exists the
index is left unchanged. -/
theorem C2_touch_spec (s : ttlcounter.CState) (key : String) (now : Int) :
    (s.items.lookup key = none → ttlcounter.touch s key now = (0, s)) ∧
    (∀ it : ttlcounter.Item, s.items.lookup key = some it →
      (ttlcounter.touch s key now).1 = it.value ∧
      (ttlcounter.touch s key now).2.items.lookup key = some ⟨it.value, now⟩ ∧
      (∀ k', k' ≠ key →
        (ttlcounter.touch s key now).2.items.lookup k' = s.items.lookup k') ∧
      (ttlcounter.touch s key now).2.ttl = s.ttl ∧
      (∀ i, ttlcounter.findKeyIdx key s.queue = some i →
        ∀ p : ttlcounter.ExpItem → Bool,
          (ttlcounter.touch s key now).2.queue.countP p =
            (s.queue.set i ⟨key, now + s.ttl⟩).countP p) ∧
      (ttlcounter.findKeyIdx key s.queue = none →
        (ttlcounter.touch s key now).2.queue = s.queue)) := by
  constructor
  · intro hl
    exact ttlcounter.touch_absent s key now hl
  · intro it hl
    rw [ttlcounter.touch_present s key now it hl]
    refine ⟨rfl, ?_, ?_, rfl, ?_, ?_⟩
    · exact ttlcounter.lookup_mapSet_self s.items key ⟨it.value, now⟩
    · intro k' hk'
      exact ttlcounter.lookup_mapSet_ne s.items key k' ⟨it.value, now⟩ hk'
    · intro i hi p
      exact ttlcounter.updateKeyInQueue_countP s.queue key (now + s.ttl) i hi p
    · intro hn
      exact ttlcounter.updateKeyInQueue_none s.queue key (now + s.ttl) hn

/-- C2 witness: a concrete `Touch` on a present key returns the stored value,
refreshes the access time, and reschedules the key's index entry; a `Touch`
on an absent key is a no-op returning 0. -/
theorem C2_touch_spec_witness :
    (ttlcounter.touch (ttlcounter.inc (ttlcounter.new 1) "a" 0) "a" 7).1 = 1 ∧
    (ttlcounter.touch (ttlcounter.inc (ttlcounter.new 1) "a" 0) "a" 7).2.items.lookup "a"
        = some ⟨1, 7⟩ ∧
    (ttlcounter.touch (ttlcounter.inc (ttlcounter.new 1) "a" 0) "a" 7).2.queue.countP
        (fun e => e.expireAt == 8) =
      ((ttlcounter.inc (ttlcounter.new 1) "a" 0).queue.set 0
        ⟨"a", 7 + (ttlcounter.inc (ttlcounter.new 1) "a" 0).ttl⟩).countP
        (fun e => e.expireAt == 8) ∧
    ttlcounter.touch (ttlcounter.new 1) "b" 3 = (0, ttlcounter.new 1) := by
  have h := (C2_touch_spec (ttlcounter.inc (ttlcounter.new 1) "a" 0) "a" 7).2
    ⟨1, 0⟩ (by decide)
  have habs := (C2_touch_spec (ttlcounter.new 1) "b" 3).1 (by decide)
  exact ⟨h.1, h.2.1, h.2.2.2.2.1 0 (by decide) _, habs⟩

/-- C7: a non-positive TTL supplied to `New` or to `SetTTL` is replaced by
the default TTL of 1 (second); a positive TTL is used as given. -/
theorem C7_default_ttl (s : ttlcounter.CState) (v : Int) :
    (v ≤ 0 → (ttlcounter.new v).ttl = 1 ∧ (ttlcounter.setTTL s v).ttl = 1) ∧
    (0 < v → (ttlcounter.new v).ttl = v ∧ (ttlcounter.setTTL s v).ttl = v) := by
  constructor
  · intro hv
    constructor
    · simp [ttlcounter.new, hv, ttlcounter.DefaultTTL]
    · by_cases heq : s.ttl = (if v ≤ 0 then ttlcounter.DefaultTTL else v)
      · rw [ttlcounter.setTTL_same s v heq]
        simp [hv, ttlcounter.DefaultTTL]
      · rw [ttlcounter.setTTL_diff s v heq]
        simp [hv, ttlcounter.DefaultTTL]
  · intro hv
    have hnv : ¬ v ≤ 0 := by omega
    constructor
    · simp [ttlcounter.new, hnv]
    · by_cases heq : s.ttl = (if v ≤ 0 then ttlcounter.DefaultTTL else v)
      · rw [ttlcounter.setTTL_same s v heq]
        simp [hnv]
      · rw [ttlcounter.setTTL_diff s v heq]
        simp [hnv]

/-- C7 witness: concrete TTLs — 0 and negative values coerce to 1, positive
values are kept. -/
theorem C7_default_ttl_witness :
    (ttlcounter.new 0).ttl = 1 ∧
    (ttlcounter.setTTL (ttlcounter.new 10) 0).ttl = 1 ∧
    (ttlcounter.new 5).ttl = 5 ∧
    (ttlcounter.setTTL (ttlcounter.new 1) 5).ttl = 5 := by
  have ha := (C7_default_ttl (ttlcounter.new 10) 0).1 (by decide)
  have hb := (C7_default_ttl (ttlcounter.new 1) 5).2 (by decide)
  exact ⟨ha.1, ha.2, hb.1, hb.2⟩

/-- C9: `Inc` on a key whose item is still physically present increments the
stored value by 1 (and refreshes `lastAccess` to `now`), never restarting at
1 — there is no expiration check anywhere in `Inc`, so this holds equally
for logically expired items. -/
theorem C9_inc_increments_present (s : ttlcounter.CState) (key : String)
    (now : Int) (it : ttlcounter.Item) (hl : s.items.lookup key = some it) :
    (ttlcounter.inc s key now).items.lookup key = some ⟨it.value + 1, now⟩ := by
  rw [ttlcounter.inc_present s key now it hl]
  exact ttlcounter.lookup_mapSet_self s.items key ⟨it.value + 1, now⟩

/-- C9 witness: a second `Inc` performed after the full TTL has elapsed (item
logically expired, no sweep has run) yields a stored value of 2, not 1. -/
theorem C9_inc_increments_present_witness :
    ttlcounter.logicallyExpired (ttlcounter.inc (ttlcounter.new 1) "a" 0) "a" 5
        = true ∧
    (ttlcounter.inc (ttlcounter.inc (ttlcounter.new 1) "a" 0) "a" 5).items.lookup "a"
        = some ⟨2, 5⟩ := by
  refine ⟨by decide, ?_⟩
  have h := C9_inc_increments_present (ttlcounter.inc (ttlcounter.new 1) "a" 0)
    "a" 5 ⟨1, 0⟩ (by decide)
  simpa using h

/-- C4: on a state whose expiration index satisfies the min-heap ordering and
the scheduling-consistency invariant (no entry scheduled later than its
item's `lastAccess + ttl`), `Vacuum(now)` removes exactly the entries with
`expireAt ≤ now` (repeatedly popping the minimum and stopping at the first
minimum beyond `now`, so every surviving entry has `expireAt > now` and the
heap ordering is preserved); it deletes a key from the map only when some
popped entry for that key satisfied `lastAccess + ttl = expireAt` (the item
was not touched after the entry was scheduled), it never deletes an item all
of whose entries are strictly fresher than their schedule, it never mutates
a surviving item, and it leaves the TTL unchanged. -/
theorem C4_vacuum_spec (s : ttlcounter.CState) (now : Int)
    (hh : ttlcounter.IsHeap s.queue) (hs : ttlcounter.syncInv s = true) :
    (∀ p : ttlcounter.ExpItem → Bool,
      (ttlcounter.vacuum s now).queue.countP p =
        s.queue.countP (fun e => p e && decide (now < e.expireAt))) ∧
    ttlcounter.IsHeap (ttlcounter.vacuum s now).queue ∧
    (∀ e ∈ (ttlcounter.vacuum s now).queue, now < e.expireAt) ∧
    ((ttlcounter.vacuum s now).ttl = s.ttl) ∧
    (∀ k, (ttlcounter.vacuum s now).items.lookup k = s.items.lookup k ∨
      (ttlcounter.vacuum s now).items.lookup k = none) ∧
    (∀ (k : String) (it : ttlcounter.Item), s.items.lookup k = some it →
      (ttlcounter.vacuum s now).items.lookup k = none →
      ∃ e, e ∈ s.queue ∧ e.key = k ∧ e.expireAt ≤ now ∧
        it.access + s.ttl = e.expireAt) ∧
    (∀ (k : String) (it : ttlcounter.Item), s.items.lookup k = some it →
      (∀ e ∈ s.queue, e.key = k → e.expireAt < it.access + s.ttl) →
      (ttlcounter.vacuum s now).items.lookup k = some it) := by
  rw [ttlcounter.vacuum_eq s now]
  have hcount := ttlcounter.vacLoop_countP s.queue.length s.items s.queue
    s.ttl now (le_refl _) hh
  refine ⟨hcount, ?_, ?_, rfl, ?_, ?_, ?_⟩
  · exact ttlcounter.vacLoop_isHeap s.queue.length s.items s.queue s.ttl now hh
  · intro e he
    by_contra hne
    have h0 := hcount (fun x => !(decide (now < x.expireAt)))
    have hz : s.queue.countP
        (fun x => (!(decide (now < x.expireAt))) && decide (now < x.expireAt))
        = 0 := by
      rw [ttlcounter.countP_congr_mem s.queue _ (fun _ => false)
        (fun e _ => Bool.not_and_self _)]
      simp
    have hpos : 0 < (ttlcounter.vacLoop s.queue.length s.items s.queue s.ttl
        now).2.countP (fun x => !(decide (now < x.expireAt))) :=
      List.countP_pos_iff.mpr ⟨e, he, by simp [hne]⟩
    omega
  · intro k
    exact ttlcounter.vacLoop_lookup_cases s.queue.length s.items s.queue
      s.ttl now k
  · intro k it hk hnone
    obtain ⟨e, he, hek, hen, hea⟩ := ttlcounter.vacLoop_deleted
      s.queue.length s.items s.queue s.ttl now k it hk hnone
    have hsync := ttlcounter.syncInv_spec s hs e he it (by rw [hek]; exact hk)
    exact ⟨e, he, hek, hen, by omega⟩
  · intro k it hk hfresh
    exact ttlcounter.vacLoop_keep s.queue.length s.items s.queue s.ttl now
      k it hk hfresh

/-- C4 witness: a concrete two-key state (heap-ordered, consistent); after
the vacuum the heap ordering still holds, the TTL is unchanged, and the
count equation of the removed-entries conjunct holds at a concrete
predicate. -/
theorem C4_vacuum_spec_witness :
    ttlcounter.IsHeap
      (ttlcounter.vacuum
        (ttlcounter.inc (ttlcounter.inc (ttlcounter.new 2) "a" 0) "b" 1) 2).queue ∧
    (ttlcounter.vacuum
        (ttlcounter.inc (ttlcounter.inc (ttlcounter.new 2) "a" 0) "b" 1) 2).ttl =
      (ttlcounter.inc (ttlcounter.inc (ttlcounter.new 2) "a" 0) "b" 1).ttl ∧
    (ttlcounter.vacuum
        (ttlcounter.inc (ttlcounter.inc (ttlcounter.new 2) "a" 0) "b" 1)
        2).queue.countP (fun _ => true) =
      (ttlcounter.inc (ttlcounter.inc (ttlcounter.new 2) "a" 0)
        "b" 1).queue.countP (fun e => true && decide ((2:Int) < e.expireAt)) := by
  have h := C4_vacuum_spec
    (ttlcounter.inc (ttlcounter.inc (ttlcounter.new 2) "a" 0) "b" 1) 2
    (by decide) (by decide)
  exact ⟨h.2.1, h.2.2.2.1, h.1 (fun _ => true)⟩

/-- C5 counterexample: the sequence `Inc("a")`, `Del("a")`, `Inc("a")` from a
fresh counter leaves the key "a" present in the map with TWO live entries in
the expiration index (the stale entry survives `Del`, and the re-creating
`Inc` pushes a fresh one), refuting the at-most-one-entry invariant. -/
theorem C5_counterexample :
    ((ttlcounter.runOps (ttlcounter.new 1)
        [.inc "a" 0, .del "a", .inc "a" 0]).items.lookup "a").isSome = true ∧
    ttlcounter.countKey "a"
      (ttlcounter.runOps (ttlcounter.new 1)
        [.inc "a" 0, .del "a", .inc "a" 0]).queue = 2 := by
  decide

/-- C5 (amended): after every completed counter mutation in any finite
sequence of `Inc`, `Touch`, `Reset`, `SetTTL` and `Vacuum` calls (no `Del`)
starting from a fresh counter, every key present in the items map has at
most one live entry in the expiration index. -/
theorem C5_at_most_one_entry (v : Int) (ops : List ttlcounter.COp)
    (hops : ∀ op ∈ ops, ttlcounter.delFree op = true) :
    ∀ k, ((ttlcounter.runOps (ttlcounter.new v) ops).items.lookup k).isSome →
      ttlcounter.countKey k (ttlcounter.runOps (ttlcounter.new v) ops).queue ≤ 1 := by
  intro k _
  refine (ttlcounter.runOps_inv ops (ttlcounter.new v) hops ?_ ?_).1 k
  · intro k'
    simp [ttlcounter.new, ttlcounter.countKey]
  · intro k' h
    simp [ttlcounter.new, ttlcounter.countKey] at h

/-- C5 witness: a concrete Del-free sequence (two increments, a touch and a
vacuum) leaves the single key with at most one index entry. -/
theorem C5_at_most_one_entry_witness :
    ttlcounter.countKey "a"
      (ttlcounter.runOps (ttlcounter.new 1)
        [.inc "a" 0, .inc "a" 1, .touch "a" 2, .vacuum 1]).queue ≤ 1 :=
  C5_at_most_one_entry 1 [.inc "a" 0, .inc "a" 1, .touch "a" 2, .vacuum 1]
    (by decide) "a" (by decide)

/-- C6: when `SetTTL` changes the TTL to a different effective value, the
rebuilt expiration index holds, entry for entry, the recomputed expiration
`(old expireAt - old TTL) + new TTL` (re-anchoring each entry to its
original last-access time), and the min-heap ordering is re-established over
the rebuilt entries; the items map is untouched. -/
theorem C6_setTTL_rebuild (s : ttlcounter.CState) (v : Int)
    (hne : ¬ s.ttl = (if v ≤ 0 then ttlcounter.DefaultTTL else v)) :
    (ttlcounter.setTTL s v).ttl = (if v ≤ 0 then ttlcounter.DefaultTTL else v) ∧
    (∀ p : ttlcounter.ExpItem → Bool,
      (ttlcounter.setTTL s v).queue.countP p =
        (s.queue.map (fun e => ⟨e.key, e.expireAt - s.ttl +
          (if v ≤ 0 then ttlcounter.DefaultTTL else v)⟩)).countP p) ∧
    ttlcounter.IsHeap (ttlcounter.setTTL s v).queue ∧
    (ttlcounter.setTTL s v).items = s.items := by
  rw [ttlcounter.setTTL_diff s v hne]
  exact ⟨rfl, fun p => ttlcounter.heapInit_countP p _,
    ttlcounter.heapInit_isHeap _, rfl⟩

/-- C6 witness: shrinking the TTL from 10 to 1 on a concrete one-key state
re-anchors that key's entry as `(10 - 10) + 1 = 1` and the rebuilt index is
a heap. -/
theorem C6_setTTL_rebuild_witness :
    (ttlcounter.setTTL (ttlcounter.inc (ttlcounter.new 10) "a" 0) 1).ttl =
      (if (1:Int) ≤ 0 then ttlcounter.DefaultTTL else 1) ∧
    ttlcounter.IsHeap
      (ttlcounter.setTTL (ttlcounter.inc (ttlcounter.new 10) "a" 0) 1).queue ∧
    (ttlcounter.setTTL (ttlcounter.inc (ttlcounter.new 10) "a" 0) 1).queue.countP
        (fun e => e.expireAt == 1) =
      ((ttlcounter.inc (ttlcounter.new 10) "a" 0).queue.map
        (fun e => (⟨e.key,
          e.expireAt - (ttlcounter.inc (ttlcounter.new 10) "a" 0).ttl +
            (if (1:Int) ≤ 0 then ttlcounter.DefaultTTL else 1)⟩ :
          ttlcounter.ExpItem))).countP
        (fun e => e.expireAt == 1) := by
  have h := C6_setTTL_rebuild (ttlcounter.inc (ttlcounter.new 10) "a" 0) 1
    (by decide)
  exact ⟨h.1, h.2.2.1, h.2.1 (fun e => e.expireAt == 1)⟩

/-- C10: `Reset` on a present key rewrites only that item (value 0, fresh
access time), leaving every other item, the TTL and the whole expiration
index unchanged; and once a key has no index entry at all, `Vacuum` never
deletes it from the map (and creates no entry for it), at any time. -/
theorem C10_reset_frame (s : ttlcounter.CState) :
    (∀ (key : String) (now : Int) (it : ttlcounter.Item),
      s.items.lookup key = some it →
      (ttlcounter.reset s key now).queue = s.queue ∧
      (ttlcounter.reset s key now).ttl = s.ttl ∧
      (ttlcounter.reset s key now).items.lookup key = some ⟨0, now⟩ ∧
      (∀ k', k' ≠ key →
        (ttlcounter.reset s key now).items.lookup k' = s.items.lookup k')) ∧
    (∀ (now : Int) (k : String), ttlcounter.countKey k s.queue = 0 →
      (ttlcounter.vacuum s now).items.lookup k = s.items.lookup k ∧
      ttlcounter.countKey k (ttlcounter.vacuum s now).queue = 0) := by
  constructor
  · intro key now it hl
    rw [ttlcounter.reset_present s key now it hl]
    refine ⟨rfl, rfl, ?_, ?_⟩
    · exact ttlcounter.lookup_mapSet_self s.items key ⟨0, now⟩
    · intro k' hk'
      exact ttlcounter.lookup_mapSet_ne s.items key k' ⟨0, now⟩ hk'
  · intro now k hzero
    rw [ttlcounter.vacuum_eq s now]
    obtain ⟨h1, h2⟩ := ttlcounter.vacLoop_no_entry s.queue.length s.items
      s.queue s.ttl now k hzero
    exact ⟨h2, h1⟩

/-- C10 witness: a concrete `Reset` leaves the index untouched; after the
sweep has popped that key's only (stale) entry without deleting the
refreshed item, a later `Vacuum` leaves the key in the map. -/
theorem C10_reset_frame_witness :
    (ttlcounter.reset (ttlcounter.inc (ttlcounter.new 1) "a" 0) "a" 5).queue =
      (ttlcounter.inc (ttlcounter.new 1) "a" 0).queue ∧
    (ttlcounter.vacuum
        (ttlcounter.vacuum
          (ttlcounter.reset (ttlcounter.inc (ttlcounter.new 1) "a" 0) "a" 5) 1)
        99).items.lookup "a" =
      (ttlcounter.vacuum
        (ttlcounter.reset (ttlcounter.inc (ttlcounter.new 1) "a" 0) "a" 5)
        1).items.lookup "a" := by
  constructor
  · exact ((C10_reset_frame (ttlcounter.inc (ttlcounter.new 1) "a" 0)).1
      "a" 5 ⟨1, 0⟩ (by decide)).1
  · exact ((C10_reset_frame
      (ttlcounter.vacuum
        (ttlcounter.reset (ttlcounter.inc (ttlcounter.new 1) "a" 0) "a" 5) 1)).2
      99 "a" (by decide)).1
